import Mathlib

set_option maxHeartbeats 1000000

/-!
Shallow embedding of `src/folders_sync_v1.py`, a one-way folder
synchronizer: `synchronize_folders` makes a replica directory tree mirror a
source tree in two passes (propagate source to replica, then prune the
replica), comparing files by MD5 checksum.

Filesystem model: a directory is a listing of named entries; a regular file
carries its byte content (`content`), its modification time (`mtime`) and
whether it can be opened for reading (`readable`).  The MD5 digest of a
readable file is modelled injectively by its content (digest collisions are
accepted residual risk in the spec and are outside the model).  Exceptions
raised by the filesystem calls and caught by the outer handler of
`synchronize_folders` are modelled by an abort flag that stops the pass and
leaves the trees in the state reached so far.
-/

namespace FoldersSyncV1

/-- A directory entry: a regular file (byte content, modification time, and
whether opening it for reading succeeds) or a directory with its named
children. -/
inductive Entry where
  | file (content : String) (mtime : Nat) (readable : Bool)
  | dir (children : List (String × Entry))
deriving Repr

/-- A directory listing: the named children of one directory. -/
abbrev Tree := List (String × Entry)

/-- Look up the entry with the given name in a directory listing. -/
def Tree.find : Tree → String → Option Entry
  | [], _ => none
  | (m, e) :: rest, n => if m = n then some e else Tree.find rest n

/-- Bind an entry under the given name: overwrite the existing binding, or
append a new one (the order of a directory listing is not significant). -/
def Tree.set : Tree → String → Entry → Tree
  | [], n, e => [(n, e)]
  | (m, e0) :: rest, n, e =>
    if m = n then (m, e) :: rest else (m, e0) :: Tree.set rest n e

/-- Remove the binding with the given name. -/
def Tree.erase : Tree → String → Tree
  | [], _ => []
  | (m, e) :: rest, n => if m = n then rest else (m, e) :: Tree.erase rest n

/-- Resolve a relative path (a list of segments) against a tree, the way the
os.path functions resolve the joined path: a path strictly below a regular
file does not exist, and the empty path denotes the root directory itself. -/
def lookupPath : Tree → List String → Option Entry
  | t, [] => some (.dir t)
  | t, n :: rest =>
    match Tree.find t n with
    | none => none
    | some (.file c mt r) => if rest.isEmpty then some (.file c mt r) else none
    | some (.dir ch) => lookupPath ch rest

/-- Which root a filesystem write targets. -/
inductive Root where
  | source
  | replica
deriving DecidableEq, Repr

/-- One filesystem operation performed by a pass, with the root it targets
and the path relative to that root (the SyncReport of the spec). -/
inductive Action where
  | created_dir (root : Root) (path : List String)
  | copied_file (root : Root) (path : List String)
  | deleted_file (root : Root) (path : List String)
  | deleted_dir (root : Root) (path : List String)
deriving DecidableEq, Repr

/-- The root an action writes to. -/
def Action.root : Action → Root
  | .created_dir r _ => r
  | .copied_file r _ => r
  | .deleted_file r _ => r
  | .deleted_dir r _ => r

/-- Whether an action deletes something (pass-2 actions). -/
def Action.isDeletion : Action → Bool
  | .deleted_file _ _ => true
  | .deleted_dir _ _ => true
  | _ => false

/-- Model of `generate_md5_checksum` (lines 67-93), applied to the entry
found at the given path (`none` when no entry exists there).  Opening a
missing path, a directory, or an unreadable file raises; the except clause
catches the exception, logs an error, and the function falls through
returning None.  On a readable file the MD5 hex digest is modelled
injectively by the content itself. -/
def generate_md5_checksum : Option Entry → Option String
  | some (.file c _ true) => some c
  | _ => none

/-- Model of the per-file body of pass 1 (lines 152-161) for one source file
named `f` with content `c`, modification time `mt` and readability `r`,
against the listing `rep` of the target folder.  Returns the updated
listing, the operations performed, and whether an uncaught exception aborted
the pass: `shutil.copy2` raises when the source file cannot be read, and
raises inside `copyfile` when the destination resolves to a directory.  When
`file_in_replica` names an existing directory, `os.path.exists` is true, the
checksum of that directory fails to `None`, and `shutil.copy2` copies the
source file INTO that directory under its basename. -/
def pass1File (rel : List String) (f c : String) (mt : Nat) (r : Bool) (rep : Tree) :
    Tree × List Action × Bool :=
  match Tree.find rep f with
  | none =>
    if r then
      (Tree.set rep f (.file c mt true), [.copied_file .replica (rel ++ [f])], false)
    else (rep, [], true)
  | some e =>
    if generate_md5_checksum (some (.file c mt r)) = generate_md5_checksum (some e) then
      (rep, [], false)
    else
      match e with
      | .file _ _ _ =>
        if r then
          (Tree.set rep f (.file c mt true), [.copied_file .replica (rel ++ [f])], false)
        else (rep, [], true)
      | .dir t =>
        match Tree.find t f with
        | some (.dir _) => (rep, [], true)
        | _ =>
          (Tree.set rep f (.dir (Tree.set t f (.file c mt true))),
           [.copied_file .replica (rel ++ [f, f])], false)

/-- The filenames component of one os.walk triple: the regular files of a
listing, in listing order. -/
def filesOf (t : Tree) : List (String × String × Nat × Bool) :=
  t.filterMap fun p =>
    match p.2 with
    | .file c mt r => some (p.1, c, mt, r)
    | .dir _ => none

/-- The files loop of pass 1 (lines 152-161) over one directory's files; an
exception aborts the loop, and with it the pass, at the failing file. -/
def pass1Files (rel : List String) : List (String × String × Nat × Bool) → Tree →
    Tree × List Action × Bool
  | [], rep => (rep, [], false)
  | (f, c, mt, r) :: rest, rep =>
    match pass1File rel f c mt r rep with
    | (rep1, a, true) => (rep1, a, true)
    | (rep1, a, false) =>
      match pass1Files rel rest rep1 with
      | (rep2, a2, ab) => (rep2, a ++ a2, ab)

mutual

/-- Model of one os.walk visit of pass 1 (lines 136-161) of a source
directory with children `srcCh`, whose target folder already exists with
listing `rep`: process the files, then recurse into the subfolders in
listing order.  Applied at the roots by `syncPasses` (the target of the
source root is the replica root, which was just ensured to exist). -/
def pass1Body (srcCh : Tree) (rel : List String) (rep : Tree) : Tree × List Action × Bool :=
  match pass1Files rel (filesOf srcCh) rep with
  | (rep1, a1, true) => (rep1, a1, true)
  | (rep1, a1, false) =>
    match pass1Subs srcCh rel rep1 with
    | (rep2, a2, ab) => (rep2, a1 ++ a2, ab)
termination_by (sizeOf srcCh, 1)

/-- The walk recursion of pass 1 into the subfolders of one source
directory.  For each subfolder the corresponding target path is checked
(line 146): when nothing exists there it is created (line 148); when a
directory exists the subtree is processed into it; when a regular file
exists there, `os.path.exists` is true so nothing is created, and every file
copy or folder creation below that path then raises NotADirectoryError,
aborting the pass — unless the source subfolder is empty, in which case the
walk finds nothing to do below it. -/
def pass1Subs : Tree → List String → Tree → Tree × List Action × Bool
  | [], _, rep => (rep, [], false)
  | (_, .file _ _ _) :: rest, rel, rep => pass1Subs rest rel rep
  | (n, .dir ch) :: rest, rel, rep =>
    match Tree.find rep n with
    | some (.file _ _ _) =>
      if ch.isEmpty then pass1Subs rest rel rep
      else (rep, [], true)
    | some (.dir t) =>
      match pass1Body ch (rel ++ [n]) t with
      | (t1, a, true) => (Tree.set rep n (.dir t1), a, true)
      | (t1, a, false) =>
        match pass1Subs rest rel (Tree.set rep n (.dir t1)) with
        | (rep2, a2, ab) => (rep2, a ++ a2, ab)
    | none =>
      match pass1Body ch (rel ++ [n]) [] with
      | (t1, a, true) =>
        (Tree.set rep n (.dir t1), .created_dir .replica (rel ++ [n]) :: a, true)
      | (t1, a, false) =>
        match pass1Subs rest rel (Tree.set rep n (.dir t1)) with
        | (rep2, a2, ab) => (rep2, .created_dir .replica (rel ++ [n]) :: (a ++ a2), ab)
termination_by l _ _ => (sizeOf l, 0)

end

/-- The pruning guard of pass 2 (lines 175 and 183): a replica child is kept
iff SOME entry exists at the corresponding path under the source root —
`os.path.exists`, regardless of the entry's kind. -/
def keepChild (src : Tree) (rel : List String) (p : String × Entry) : Bool :=
  (lookupPath src (rel ++ [p.1])).isSome

mutual

/-- Model of one os.walk visit of pass 2 (lines 163-186) of the replica
directory at `rel` with listing `rep`: delete the subfolders whose
corresponding source path does not exist (`shutil.rmtree`, recursive, lines
173-178), then such files (`os.remove`, lines 181-186), then descend into
the surviving subfolders (os.walk does not descend into a tree that was just
deleted). -/
def pass2Visit (src : Tree) (rel : List String) (rep : Tree) : Tree × List Action :=
  let delDirs := rep.filterMap fun p =>
    match p.2 with
    | .dir _ =>
      if keepChild src rel p then none
      else some (Action.deleted_dir .replica (rel ++ [p.1]))
    | _ => none
  let delFiles := rep.filterMap fun p =>
    match p.2 with
    | .file _ _ _ =>
      if keepChild src rel p then none
      else some (Action.deleted_file .replica (rel ++ [p.1]))
    | _ => none
  match pass2Subs src rel rep with
  | (rep2, a) => (rep2, delDirs ++ delFiles ++ a)
termination_by (sizeOf rep, 1)

/-- The state change of one pass-2 visit: drop the deleted children, keep
the files, and recurse into the kept subfolders. -/
def pass2Subs (src : Tree) (rel : List String) : Tree → Tree × List Action
  | [] => ([], [])
  | (n, e) :: rest =>
    if keepChild src rel (n, e) then
      match e with
      | .file c mt r =>
        match pass2Subs src rel rest with
        | (rest2, a) => ((n, .file c mt r) :: rest2, a)
      | .dir ch =>
        match pass2Visit src (rel ++ [n]) ch with
        | (ch2, a) =>
          match pass2Subs src rel rest with
          | (rest2, a2) => ((n, .dir ch2) :: rest2, a ++ a2)
    else pass2Subs src rel rest
termination_by l => (sizeOf l, 0)

end

/-- The filesystem state seen by one call of `synchronize_folders`: whether
each root denotes an existing directory and, when it does, its tree.  `none`
for the source means `os.path.isdir(source_folder)` is false (line 120, also
when a regular file sits at that path); `none` for the replica means the
replica root does not exist (line 127). -/
structure FSState where
  src : Option Tree
  rep : Option Tree
deriving Repr

/-- Both passes (lines 136-186), starting from an existing replica root. -/
def syncPasses (s rep0 : Tree) : Tree × List Action :=
  match pass1Body s [] rep0 with
  | (rep1, a1, true) => (rep1, a1)
  | (rep1, a1, false) =>
    match pass2Visit s [] rep1 with
    | (rep2, a2) => (rep2, a1 ++ a2)

/-- Model of `synchronize_folders` (lines 96-189).  A missing source root
only logs a warning and ends the cycle (lines 120-121); a missing replica
root is created first (line 131, reported as a directory creation at the
replica root); an exception escaping a pass is caught and logged by the
outer handler (lines 188-189), leaving the trees as the aborted pass left
them.  Returns the new state and the operations performed. -/
def synchronize_folders (st : FSState) : FSState × List Action :=
  match st.src with
  | none => (st, [])
  | some s =>
    match st.rep with
    | none =>
      match syncPasses s [] with
      | (r2, a) => (⟨some s, some r2⟩, .created_dir .replica [] :: a)
    | some r =>
      match syncPasses s r with
      | (r2, a) => (⟨some s, some r2⟩, a)

/-- Well-formed directory tree: within each directory, each name denotes at
most one entry (the uniqueness invariant of the spec's data model). -/
def wfTree : Tree → Bool
  | [] => true
  | (n, .file _ _ _) :: rest => (Tree.find rest n).isNone && wfTree rest
  | (n, .dir ch) :: rest => (Tree.find rest n).isNone && wfTree ch && wfTree rest

/-- Well-formedness of a single entry: directories carry well-formed
subtrees. -/
def wfEntry : Entry → Bool
  | .file _ _ _ => true
  | .dir ch => wfTree ch

/-- Every file of the tree can be opened for reading. -/
def allReadable : Tree → Bool
  | [] => true
  | (_, .file _ _ r) :: rest => r && allReadable rest
  | (_, .dir ch) :: rest => allReadable ch && allReadable rest

/-- Readability of a single entry: files are readable, directories hold only
readable files. -/
def entryReadable : Entry → Bool
  | .file _ _ r => r
  | .dir ch => allReadable ch

/-- No relative path is a directory in one tree and a regular file in the
other (the kind-mismatch situation the spec itself lists as an open
question). -/
def noMismatch : Tree → Tree → Bool
  | [], _ => true
  | (n, .file _ _ _) :: rest, r =>
    (match Tree.find r n with
     | some (.dir _) => false
     | _ => true) && noMismatch rest r
  | (n, .dir ch) :: rest, r =>
    (match Tree.find r n with
     | some (.file _ _ _) => false
     | some (.dir ch') => noMismatch ch ch'
     | none => true) && noMismatch rest r

/-- The source side of the mirror invariant, as pass 1 establishes it: every
source directory exists in the replica, and every source file exists there
as a readable file with identical content (the replica tree may still hold
extra entries, which pass 2 removes). -/
def covered : Tree → Tree → Bool
  | [], _ => true
  | (n, .file c _ _) :: rest, r =>
    (match Tree.find r n with
     | some (.file c' _ r') => c == c' && r'
     | _ => false) && covered rest r
  | (n, .dir ch) :: rest, r =>
    (match Tree.find r n with
     | some (.dir ch') => covered ch ch'
     | _ => false) && covered rest r

/-- The full mirror invariant of the spec: every relative path of the source
exists in the replica with the same kind and, for files, identical content
fingerprint, and the replica holds nothing else. -/
def mirrors : Tree → Tree → Bool
  | [], r => r.isEmpty
  | (n, .file c _ _) :: rest, r =>
    (match Tree.find r n with
     | some (.file c' _ _) => c == c'
     | _ => false) && mirrors rest (Tree.erase r n)
  | (n, .dir ch) :: rest, r =>
    (match Tree.find r n with
     | some (.dir ch') => mirrors ch ch'
     | _ => false) && mirrors rest (Tree.erase r n)

/-- Pointwise mirror relation between what two trees hold at one name. -/
def entryRel : Option Entry → Option Entry → Prop
  | none, none => True
  | some (.file c _ _), some (.file c' _ _) => c = c'
  | some (.dir ch), some (.dir ch') => mirrors ch ch' = true
  | _, _ => False

/-- Pass 2 as the amended specification words it: a replica entry is deleted
exactly when no entry of ANY kind exists at the corresponding source path,
and a deleted directory disappears together with its entire subtree. -/
def pruneSpec (src : Tree) (rel : List String) : Tree → Tree
  | [] => []
  | (n, e) :: rest =>
    if (lookupPath src (rel ++ [n])).isSome then
      (match e with
       | .file c mt r => (n, Entry.file c mt r)
       | .dir ch => (n, Entry.dir (pruneSpec src (rel ++ [n]) ch))) ::
        pruneSpec src rel rest
    else pruneSpec src rel rest

/-- Once a deletion appears in the report, everything after it is a
deletion: all pass-1 operations precede all pass-2 operations. -/
def copiesPrecedeDeletions : List Action → Bool
  | [] => true
  | a :: rest => if a.isDeletion then rest.all Action.isDeletion
                 else copiesPrecedeDeletions rest

/-- How the process ends as seen from `main` (lines 212-248), after argument
parsing succeeded: either it terminates with the given exit status having
run the given number of synchronization passes, or it enters the unbounded
synchronization loop (lines 235-242). -/
inductive MainOutcome where
  | exited (exitCode : Nat) (syncPassesRun : Nat)
  | entersSyncLoop
deriving DecidableEq, Repr

/-- Model of `main` after argument parsing (lines 226-242): when
`setup_logging` reports failure (it returns False, catching its own
exceptions, lines 60-64), `main` prints a message and executes a plain
`return` (lines 227-228) — the script then ends with exit status 0, having
run no synchronization pass.  When logging setup succeeds, the infinite
synchronization loop is entered. -/
def mainAfterParse (setupOk : Bool) : MainOutcome :=
  if setupOk then .entersSyncLoop else .exited 0 0

/-- The shape of every pass-1 operation: a directory creation or a file copy
targeting the replica. -/
def pass1ActionOk : Action → Bool
  | .created_dir .replica _ => true
  | .copied_file .replica _ => true
  | _ => false

/-- The shape of every pass-2 operation: a file or directory deletion
targeting the replica. -/
def pass2ActionOk : Action → Bool
  | .deleted_file .replica _ => true
  | .deleted_dir .replica _ => true
  | _ => false

/-! ### Basic lemmas about the tree operations -/

theorem wfTree_cons (n : String) (e : Entry) (rest : Tree) :
    wfTree ((n, e) :: rest) =
      ((Tree.find rest n).isNone && wfEntry e && wfTree rest) := by
  cases e <;> simp [wfTree, wfEntry, Bool.and_assoc]

theorem allReadable_cons (n : String) (e : Entry) (rest : Tree) :
    allReadable ((n, e) :: rest) = (entryReadable e && allReadable rest) := by
  cases e <;> simp [allReadable, entryReadable]

theorem find_set_self (t : Tree) (n : String) (e : Entry) :
    Tree.find (Tree.set t n e) n = some e := by
  induction t with
  | nil => simp [Tree.set, Tree.find]
  | cons p rest ih =>
    obtain ⟨m, e0⟩ := p
    by_cases h : m = n <;> simp [Tree.set, Tree.find, h, ih]

theorem find_set_ne (t : Tree) (n k : String) (e : Entry) (h : k ≠ n) :
    Tree.find (Tree.set t n e) k = Tree.find t k := by
  induction t with
  | nil =>
    have hnk : ¬ n = k := fun hh => h hh.symm
    simp [Tree.set, Tree.find, hnk]
  | cons p rest ih =>
    obtain ⟨m, e0⟩ := p
    by_cases hm : m = n
    · subst hm
      have hmk : ¬ m = k := fun hh => h hh.symm
      simp [Tree.set, Tree.find, hmk]
    · simp only [Tree.set, if_neg hm, Tree.find]
      by_cases hk : m = k <;> simp [hk, ih]

theorem set_eq_self (t : Tree) (n : String) (e : Entry)
    (h : Tree.find t n = some e) : Tree.set t n e = t := by
  induction t with
  | nil => simp [Tree.find] at h
  | cons p rest ih =>
    obtain ⟨m, e0⟩ := p
    by_cases hm : m = n
    · subst hm
      simp [Tree.find] at h
      simp [Tree.set, h]
    · simp only [Tree.find, if_neg hm] at h
      simp [Tree.set, hm, ih h]

theorem find_erase_ne (t : Tree) (n k : String) (h : k ≠ n) :
    Tree.find (Tree.erase t n) k = Tree.find t k := by
  induction t with
  | nil => simp [Tree.erase]
  | cons p rest ih =>
    obtain ⟨m, e0⟩ := p
    by_cases hm : m = n
    · subst hm
      have hmk : ¬ m = k := fun hh => h hh.symm
      simp [Tree.erase, Tree.find, hmk]
    · simp only [Tree.erase, if_neg hm, Tree.find]
      by_cases hk : m = k <;> simp [hk, ih]

theorem find_erase_self (t : Tree) (n : String) (hw : wfTree t = true) :
    Tree.find (Tree.erase t n) n = none := by
  induction t with
  | nil => simp [Tree.erase, Tree.find]
  | cons p rest ih =>
    obtain ⟨m, e0⟩ := p
    rw [wfTree_cons] at hw
    simp only [Bool.and_eq_true] at hw
    by_cases hm : m = n
    · subst hm
      simpa [Tree.erase, Option.isNone_iff_eq_none] using hw.1.1
    · simp [Tree.erase, hm, Tree.find, ih hw.2]

theorem wfTree_find (t : Tree) (n : String) (e : Entry)
    (hw : wfTree t = true) (h : Tree.find t n = some e) : wfEntry e = true := by
  induction t with
  | nil => simp [Tree.find] at h
  | cons p rest ih =>
    obtain ⟨m, e0⟩ := p
    rw [wfTree_cons] at hw
    simp only [Bool.and_eq_true] at hw
    by_cases hm : m = n
    · subst hm
      simp [Tree.find] at h
      exact h ▸ hw.1.2
    · simp only [Tree.find, if_neg hm] at h
      exact ih hw.2 h

theorem allReadable_find (t : Tree) (n : String) (e : Entry)
    (hr : allReadable t = true) (h : Tree.find t n = some e) :
    entryReadable e = true := by
  induction t with
  | nil => simp [Tree.find] at h
  | cons p rest ih =>
    obtain ⟨m, e0⟩ := p
    rw [allReadable_cons] at hr
    simp only [Bool.and_eq_true] at hr
    by_cases hm : m = n
    · subst hm
      simp [Tree.find] at h
      exact h ▸ hr.1
    · simp only [Tree.find, if_neg hm] at h
      exact ih hr.2 h

theorem wfTree_set (t : Tree) (n : String) (e : Entry)
    (hw : wfTree t = true) (he : wfEntry e = true) :
    wfTree (Tree.set t n e) = true := by
  induction t with
  | nil => simp [Tree.set, wfTree_cons, Tree.find, he, wfTree]
  | cons p rest ih =>
    obtain ⟨m, e0⟩ := p
    rw [wfTree_cons] at hw
    simp only [Bool.and_eq_true] at hw
    by_cases hm : m = n
    · subst hm
      simp [Tree.set, wfTree_cons, hw.1.1, hw.2, he]
    · rw [Tree.set, if_neg hm, wfTree_cons]
      have h2 : Tree.find (Tree.set rest n e) m = Tree.find rest m :=
        find_set_ne rest n m e hm
      simp [h2, hw.1.1, hw.1.2, ih hw.2]

theorem wfTree_erase (t : Tree) (n : String) (hw : wfTree t = true) :
    wfTree (Tree.erase t n) = true := by
  induction t with
  | nil => simp [Tree.erase, hw]
  | cons p rest ih =>
    obtain ⟨m, e0⟩ := p
    rw [wfTree_cons] at hw
    simp only [Bool.and_eq_true] at hw
    by_cases hm : m = n
    · subst hm
      simpa [Tree.erase] using hw.2
    · rw [Tree.erase, if_neg hm, wfTree_cons]
      have h2 : Tree.find (Tree.erase rest n) m = Tree.find rest m :=
        find_erase_ne rest n m hm
      simp [h2, hw.1.1, hw.1.2, ih hw.2]

theorem sizeOf_find_lt (t : Tree) (n : String) (e : Entry)
    (h : Tree.find t n = some e) : sizeOf e < sizeOf t := by
  induction t with
  | nil => simp [Tree.find] at h
  | cons p rest ih =>
    obtain ⟨m, e0⟩ := p
    by_cases hm : m = n
    · subst hm
      simp [Tree.find] at h
      subst h
      simp [List.cons.sizeOf_spec, Prod.mk.sizeOf_spec]
      omega
    · simp only [Tree.find, if_neg hm] at h
      have := ih h
      simp [List.cons.sizeOf_spec]
      omega

/-! ### The MD5 comparison -/

theorem md5_file_eq_iff (c c' : String) (mt mt' : Nat) (r r' : Bool) :
    (generate_md5_checksum (some (.file c mt r)) =
      generate_md5_checksum (some (.file c' mt' r'))) ↔
      ((r = true ∧ r' = true ∧ c = c') ∨ (r = false ∧ r' = false)) := by
  cases r <;> cases r' <;> simp [generate_md5_checksum]

/-! ### Path resolution -/

theorem lookupPath_append_single (t : Tree) (rel : List String) (n : String) :
    lookupPath t (rel ++ [n]) =
      (match lookupPath t rel with
       | some (.dir s) => Tree.find s n
       | _ => none) := by
  induction rel generalizing t with
  | nil =>
    simp only [List.nil_append, lookupPath]
    cases h : Tree.find t n with
    | none => simp
    | some e =>
      cases e with
      | file c mt r => simp [List.isEmpty]
      | dir ch => simp [lookupPath]
  | cons m rel' ih =>
    simp only [List.cons_append, lookupPath]
    cases h : Tree.find t m with
    | none => simp
    | some e =>
      cases e with
      | file c mt r =>
        cases rel' <;> simp [List.isEmpty]
      | dir ch => exact ih ch

/-! ### Extraction and congruence lemmas for the spec predicates -/

theorem noMismatch_nil_right (l : Tree) : noMismatch l [] = true := by
  induction l with
  | nil => simp [noMismatch]
  | cons p rest ih =>
    obtain ⟨n, e⟩ := p
    cases e <;> simp [noMismatch, Tree.find, ih]

theorem noMismatch_ext (l r r' : Tree)
    (h : ∀ p ∈ l, Tree.find r' p.1 = Tree.find r p.1) :
    noMismatch l r' = noMismatch l r := by
  induction l with
  | nil => simp [noMismatch]
  | cons p rest ih =>
    obtain ⟨n, e⟩ := p
    have hn : Tree.find r' n = Tree.find r n := h (n, e) (by simp)
    have hr : ∀ p ∈ rest, Tree.find r' p.1 = Tree.find r p.1 :=
      fun p hp => h p (by simp [hp])
    cases e <;> simp [noMismatch, hn, ih hr]

theorem covered_ext (l r r' : Tree)
    (h : ∀ p ∈ l, Tree.find r' p.1 = Tree.find r p.1) :
    covered l r' = covered l r := by
  induction l with
  | nil => simp [covered]
  | cons p rest ih =>
    obtain ⟨n, e⟩ := p
    have hn : Tree.find r' n = Tree.find r n := h (n, e) (by simp)
    have hr : ∀ p ∈ rest, Tree.find r' p.1 = Tree.find r p.1 :=
      fun p hp => h p (by simp [hp])
    cases e <;> simp [covered, hn, ih hr]

theorem covered_find_file (s rep : Tree) (hc : covered s rep = true)
    (n c : String) (mt : Nat) (r : Bool)
    (h : Tree.find s n = some (.file c mt r)) :
    ∃ mt', Tree.find rep n = some (.file c mt' true) := by
  induction s with
  | nil => simp [Tree.find] at h
  | cons p rest ih =>
    obtain ⟨m, e0⟩ := p
    by_cases hm : m = n
    · subst hm
      simp [Tree.find] at h
      subst h
      simp only [covered, Bool.and_eq_true] at hc
      rcases hfind : Tree.find rep m with _ | e' <;> rw [hfind] at hc
      · simp at hc
      · cases e' with
        | file c2 mt2 r2 =>
          simp only [Bool.and_eq_true, beq_iff_eq] at hc
          exact ⟨mt2, by rw [hc.1.1, hc.1.2]⟩
        | dir ch2 => simp at hc
    · simp only [Tree.find, if_neg hm] at h
      have hrest : covered rest rep = true := by
        cases e0 <;> simp only [covered, Bool.and_eq_true] at hc <;> exact hc.2
      exact ih hrest h

theorem covered_find_dir (s rep : Tree) (hc : covered s rep = true)
    (n : String) (ch : Tree) (h : Tree.find s n = some (.dir ch)) :
    ∃ t', Tree.find rep n = some (.dir t') ∧ covered ch t' = true := by
  induction s with
  | nil => simp [Tree.find] at h
  | cons p rest ih =>
    obtain ⟨m, e0⟩ := p
    by_cases hm : m = n
    · subst hm
      simp [Tree.find] at h
      subst h
      simp only [covered, Bool.and_eq_true] at hc
      rcases hfind : Tree.find rep m with _ | e' <;> rw [hfind] at hc
      · simp at hc
      · cases e' with
        | file c2 mt2 r2 => simp at hc
        | dir ch2 => exact ⟨ch2, rfl, hc.1⟩
    · simp only [Tree.find, if_neg hm] at h
      have hrest : covered rest rep = true := by
        cases e0 <;> simp only [covered, Bool.and_eq_true] at hc <;> exact hc.2
      exact ih hrest h

/-! ### The mirror invariant, pointwise -/

theorem eq_nil_of_find_none (r : Tree) (h : ∀ n, Tree.find r n = none) :
    r = [] := by
  cases r with
  | nil => rfl
  | cons p rest =>
    obtain ⟨m, e⟩ := p
    have := h m
    simp [Tree.find] at this

theorem mirrors_pointwise (s r : Tree) (hm : mirrors s r = true) (n : String) :
    entryRel (Tree.find s n) (Tree.find r n) := by
  induction s generalizing r n with
  | nil =>
    have : r = [] := by
      simpa [mirrors, List.isEmpty_iff] using hm
    subst this
    simp [Tree.find, entryRel]
  | cons p rest ih =>
    obtain ⟨m, e⟩ := p
    by_cases hn : m = n
    · subst hn
      cases e with
      | file c mt rd =>
        simp only [mirrors, Bool.and_eq_true] at hm
        rcases hfind : Tree.find r m with _ | e' <;> rw [hfind] at hm
        · simp at hm
        · cases e' with
          | file c' mt' rd' =>
            simp only [beq_iff_eq] at hm
            simp [Tree.find, entryRel, hfind, hm.1]
          | dir ch' => simp at hm
      | dir ch =>
        simp only [mirrors, Bool.and_eq_true] at hm
        rcases hfind : Tree.find r m with _ | e' <;> rw [hfind] at hm
        · simp at hm
        · cases e' with
          | file c' mt' rd' => simp at hm
          | dir ch' =>
            have h1 : mirrors ch ch' = true := by simpa using hm.1
            simp [Tree.find, entryRel, hfind, h1]
    · have hrest : mirrors rest (Tree.erase r m) = true := by
        cases e <;> simp only [mirrors, Bool.and_eq_true] at hm <;> exact hm.2
      have h1 : Tree.find ((m, e) :: rest) n = Tree.find rest n := by
        simp [Tree.find, hn]
      have h2 : Tree.find (Tree.erase r m) n = Tree.find r n :=
        find_erase_ne r m n (fun hh => hn hh.symm)
      rw [h1, ← h2]
      exact ih (Tree.erase r m) hrest n

theorem mirrors_of_pointwise (s r : Tree) (hws : wfTree s = true)
    (hwr : wfTree r = true)
    (h : ∀ n, entryRel (Tree.find s n) (Tree.find r n)) :
    mirrors s r = true := by
  induction s generalizing r with
  | nil =>
    have : r = [] := by
      apply eq_nil_of_find_none
      intro n
      have := h n
      rcases hf : Tree.find r n with _ | e'
      · rfl
      · rw [hf] at this
        simp [Tree.find, entryRel] at this
    subst this
    simp [mirrors]
  | cons p rest ih =>
    obtain ⟨m, e⟩ := p
    rw [wfTree_cons] at hws
    simp only [Bool.and_eq_true, Option.isNone_iff_eq_none] at hws
    have hrest : ∀ n, entryRel (Tree.find rest n) (Tree.find (Tree.erase r m) n) := by
      intro n
      by_cases hn : m = n
      · subst hn
        rw [hws.1.1, find_erase_self r m hwr]
        simp [entryRel]
      · rw [find_erase_ne r m n (fun hh => hn hh.symm)]
        have h1 : Tree.find ((m, e) :: rest) n = Tree.find rest n := by
          simp [Tree.find, hn]
        have := h n
        rwa [h1] at this
    have hmir : mirrors rest (Tree.erase r m) = true :=
      ih (Tree.erase r m) hws.2 (wfTree_erase r m hwr) hrest
    have hm := h m
    have hfm : Tree.find ((m, e) :: rest) m = some e := by simp [Tree.find]
    rw [hfm] at hm
    cases e with
    | file c mt rd =>
      rcases hf : Tree.find r m with _ | e' <;> rw [hf] at hm
      · simp [entryRel] at hm
      · cases e' with
        | file c' mt' rd' =>
          simp only [entryRel] at hm
          simp [mirrors, hf, hm, hmir]
        | dir ch' => simp [entryRel] at hm
    | dir ch =>
      rcases hf : Tree.find r m with _ | e' <;> rw [hf] at hm
      · simp [entryRel] at hm
      · cases e' with
        | file c' mt' rd' => simp [entryRel] at hm
        | dir ch' =>
          simp only [entryRel] at hm
          simp [mirrors, hf, hm, hmir]

/-! ### Membership lemmas -/

theorem find_eq_none_iff_names (t : Tree) (n : String) :
    Tree.find t n = none ↔ n ∉ t.map Prod.fst := by
  induction t with
  | nil => simp [Tree.find]
  | cons p rest ih =>
    obtain ⟨m, e⟩ := p
    by_cases hm : m = n
    · subst hm
      simp [Tree.find]
    · rw [Tree.find, if_neg hm, ih]
      simp only [List.map_cons, List.mem_cons]
      constructor
      · intro h hh
        rcases hh with hh | hh
        · exact hm hh.symm
        · exact h hh
      · intro h hh
        exact h (Or.inr hh)

theorem wf_mem_find (l : Tree) (n : String) (e : Entry)
    (hw : wfTree l = true) (h : (n, e) ∈ l) : Tree.find l n = some e := by
  induction l with
  | nil => simp at h
  | cons p rest ih =>
    obtain ⟨m, e0⟩ := p
    rw [wfTree_cons] at hw
    simp only [Bool.and_eq_true, Option.isNone_iff_eq_none] at hw
    rcases List.mem_cons.mp h with h1 | h1
    · rw [Prod.mk.injEq] at h1
      obtain ⟨h2, h3⟩ := h1
      subst h2; subst h3
      simp [Tree.find]
    · have hne : m ≠ n := by
        intro hh
        subst hh
        have : m ∈ rest.map Prod.fst :=
          List.mem_map.mpr ⟨(m, e), h1, rfl⟩
        exact (find_eq_none_iff_names rest m).mp hw.1.1 this
      simp [Tree.find, hne, ih hw.2 h1]

theorem wfTree_mem (l : Tree) (n : String) (e : Entry)
    (hw : wfTree l = true) (h : (n, e) ∈ l) : wfEntry e = true :=
  wfTree_find l n e hw (wf_mem_find l n e hw h)

theorem allReadable_mem (l : Tree) (n : String) (e : Entry)
    (hr : allReadable l = true) (h : (n, e) ∈ l) : entryReadable e = true := by
  induction l with
  | nil => simp at h
  | cons p rest ih =>
    obtain ⟨m, e0⟩ := p
    rw [allReadable_cons] at hr
    simp only [Bool.and_eq_true] at hr
    rcases List.mem_cons.mp h with h1 | h1
    · rw [Prod.mk.injEq] at h1
      obtain ⟨h2, h3⟩ := h1
      subst h3
      exact hr.1
    · exact ih hr.2 h1

theorem of_mem_filesOf (l : Tree) (n c : String) (mt : Nat) (r : Bool)
    (h : (n, c, mt, r) ∈ filesOf l) : (n, Entry.file c mt r) ∈ l := by
  simp only [filesOf, List.mem_filterMap] at h
  obtain ⟨⟨m, e⟩, hmem, heq⟩ := h
  cases e with
  | file c0 mt0 r0 =>
    have heq2 : (m, c0, mt0, r0) = (n, c, mt, r) := Option.some.inj heq
    simp only [Prod.mk.injEq] at heq2
    obtain ⟨h1, h2, h3, h4⟩ := heq2
    subst h1; subst h2; subst h3; subst h4
    exact hmem
  | dir ch => exact Option.noConfusion heq

theorem mem_filesOf (l : Tree) (n c : String) (mt : Nat) (r : Bool)
    (h : (n, Entry.file c mt r) ∈ l) : (n, c, mt, r) ∈ filesOf l := by
  simp only [filesOf, List.mem_filterMap]
  exact ⟨(n, Entry.file c mt r), h, rfl⟩

theorem mem_filesOf_names (l : Tree) (m : String)
    (h : m ∈ (filesOf l).map Prod.fst) : m ∈ l.map Prod.fst := by
  obtain ⟨⟨n, c, mt, r⟩, hmem, heq⟩ := List.mem_map.mp h
  subst heq
  exact List.mem_map.mpr ⟨(n, Entry.file c mt r), of_mem_filesOf l n c mt r hmem, rfl⟩

theorem filesOf_names_nodup (l : Tree) (hw : wfTree l = true) :
    ((filesOf l).map Prod.fst).Nodup := by
  induction l with
  | nil => simp [filesOf]
  | cons p rest ih =>
    obtain ⟨m, e⟩ := p
    rw [wfTree_cons] at hw
    simp only [Bool.and_eq_true, Option.isNone_iff_eq_none] at hw
    cases e with
    | file c mt r =>
      simp only [filesOf, List.filterMap_cons]
      refine List.Nodup.cons ?_ (ih hw.2)
      intro hmem
      exact (find_eq_none_iff_names rest m).mp hw.1.1 (mem_filesOf_names rest m hmem)
    | dir ch =>
      simpa only [filesOf, List.filterMap_cons] using ih hw.2

theorem noMismatch_file_entry (l rep : Tree) (n c : String) (mt : Nat) (r : Bool)
    (hnm : noMismatch l rep = true) (h : (n, Entry.file c mt r) ∈ l) :
    ∀ t, Tree.find rep n ≠ some (Entry.dir t) := by
  induction l with
  | nil => simp at h
  | cons p rest ih =>
    obtain ⟨m, e0⟩ := p
    rcases List.mem_cons.mp h with h1 | h1
    · rw [Prod.mk.injEq] at h1
      obtain ⟨h2, h3⟩ := h1
      subst h2
      subst h3
      intro t hfind
      simp [noMismatch, hfind] at hnm
    · have hrest : noMismatch rest rep = true := by
        cases e0 <;> simp only [noMismatch, Bool.and_eq_true] at hnm <;> exact hnm.2
      exact ih hrest h1

theorem noMismatch_dir_entry (l rep : Tree) (n : String) (ch t : Tree)
    (hnm : noMismatch l rep = true) (h : (n, Entry.dir ch) ∈ l)
    (hw : wfTree l = true) (hfind : Tree.find rep n = some (Entry.dir t)) :
    noMismatch ch t = true := by
  induction l with
  | nil => simp at h
  | cons p rest ih =>
    obtain ⟨m, e0⟩ := p
    rw [wfTree_cons] at hw
    simp only [Bool.and_eq_true, Option.isNone_iff_eq_none] at hw
    rcases List.mem_cons.mp h with h1 | h1
    · rw [Prod.mk.injEq] at h1
      obtain ⟨h2, h3⟩ := h1
      subst h2; subst h3
      simp [noMismatch, hfind] at hnm
      exact hnm.1
    · have hrest : noMismatch rest rep = true := by
        cases e0 <;> simp only [noMismatch, Bool.and_eq_true] at hnm <;> exact hnm.2
      exact ih hrest h1 hw.2

theorem noMismatch_update (l rep rep1 : Tree)
    (hnm : noMismatch l rep = true)
    (h1 : ∀ n ch, (n, Entry.dir ch) ∈ l → Tree.find rep1 n = Tree.find rep n)
    (h2 : ∀ n c mt r, (n, Entry.file c mt r) ∈ l →
      ∀ t, Tree.find rep1 n ≠ some (Entry.dir t)) :
    noMismatch l rep1 = true := by
  induction l with
  | nil => simp [noMismatch]
  | cons p rest ih =>
    obtain ⟨m, e0⟩ := p
    have hrest : noMismatch rest rep = true := by
      cases e0 <;> simp only [noMismatch, Bool.and_eq_true] at hnm <;> exact hnm.2
    have ihr : noMismatch rest rep1 = true :=
      ih hrest (fun n ch hm => h1 n ch (List.mem_cons_of_mem _ hm))
        (fun n c mt r hm => h2 n c mt r (List.mem_cons_of_mem _ hm))
    cases e0 with
    | file c mt r =>
      have hh := h2 m c mt r (List.mem_cons_self _ _)
      rcases hf : Tree.find rep1 m with _ | e'
      · simp [noMismatch, hf, ihr]
      · cases e' with
        | file c2 mt2 r2 => simp [noMismatch, hf, ihr]
        | dir t => exact absurd hf (hh t)
    | dir ch =>
      have hh : Tree.find rep1 m = Tree.find rep m :=
        h1 m ch (List.mem_cons_self _ _)
      have hcond : (match Tree.find rep m with
          | some (.file _ _ _) => false
          | some (.dir ch') => noMismatch ch ch'
          | none => true) = true := by
        simp only [noMismatch, Bool.and_eq_true] at hnm
        exact hnm.1
      simp only [noMismatch, hh, Bool.and_eq_true]
      exact ⟨hcond, ihr⟩

theorem covered_of_parts (l rep : Tree)
    (h1 : ∀ n c mt r, (n, Entry.file c mt r) ∈ l →
      ∃ mt', Tree.find rep n = some (Entry.file c mt' true))
    (h2 : ∀ n ch, (n, Entry.dir ch) ∈ l →
      ∃ t', Tree.find rep n = some (Entry.dir t') ∧ covered ch t' = true) :
    covered l rep = true := by
  induction l with
  | nil => simp [covered]
  | cons p rest ih =>
    obtain ⟨m, e0⟩ := p
    have ihr : covered rest rep = true :=
      ih (fun n c mt r hm => h1 n c mt r (List.mem_cons_of_mem _ hm))
        (fun n ch hm => h2 n ch (List.mem_cons_of_mem _ hm))
    cases e0 with
    | file c mt r =>
      obtain ⟨mt', hf⟩ := h1 m c mt r (List.mem_cons_self _ _)
      simp [covered, hf, ihr]
    | dir ch =>
      obtain ⟨t', hf, hc⟩ := h2 m ch (List.mem_cons_self _ _)
      simp [covered, hf, ihr, hc]

/-! ### Pass 1, files loop: on readable files with no directory in the way it
never aborts, and it leaves every processed file present with the source's
content -/

theorem pass1File_ok (rel : List String) (f c : String) (mt : Nat) (rep : Tree)
    (hw : wfTree rep = true)
    (hnd : ∀ t, Tree.find rep f ≠ some (Entry.dir t)) :
    ∃ rep1 a,
      pass1File rel f c mt true rep = (rep1, a, false) ∧
      wfTree rep1 = true ∧
      (∃ mt', Tree.find rep1 f = some (Entry.file c mt' true)) ∧
      (∀ m, m ≠ f → Tree.find rep1 m = Tree.find rep m) := by
  rcases hf : Tree.find rep f with _ | e
  · refine ⟨Tree.set rep f (.file c mt true), [.copied_file .replica (rel ++ [f])],
      ?_, ?_, ⟨mt, find_set_self ..⟩, ?_⟩
    · simp [pass1File, hf]
    · exact wfTree_set rep f _ hw rfl
    · intro m hm
      exact find_set_ne rep f m _ hm
  · cases e with
    | file c' mt' r' =>
      by_cases heq : generate_md5_checksum (some (.file c mt true)) =
          generate_md5_checksum (some (.file c' mt' r'))
      · have h2 := (md5_file_eq_iff c c' mt mt' true r').mp heq
        rcases h2 with ⟨_, hr', hc⟩ | ⟨h2, _⟩
        · refine ⟨rep, [], ?_, hw, ⟨mt', ?_⟩, fun m _ => rfl⟩
          · simp [pass1File, hf, heq]
          · rw [hf, hc, hr']
        · exact absurd h2 (by simp)
      · refine ⟨Tree.set rep f (.file c mt true), [.copied_file .replica (rel ++ [f])],
          ?_, ?_, ⟨mt, find_set_self ..⟩, ?_⟩
        · simp [pass1File, hf, heq]
        · exact wfTree_set rep f _ hw rfl
        · intro m hm
          exact find_set_ne rep f m _ hm
    | dir t => exact absurd hf (hnd t)

theorem pass1Files_ok (fs : List (String × String × Nat × Bool)) (rel : List String)
    (rep : Tree)
    (hw : wfTree rep = true)
    (hnd : (fs.map Prod.fst).Nodup)
    (hr : ∀ p ∈ fs, p.2.2.2 = true)
    (hdir : ∀ p ∈ fs, ∀ t, Tree.find rep p.1 ≠ some (Entry.dir t)) :
    ∃ rep1 a,
      pass1Files rel fs rep = (rep1, a, false) ∧
      wfTree rep1 = true ∧
      (∀ p ∈ fs, ∃ mt', Tree.find rep1 p.1 = some (Entry.file p.2.1 mt' true)) ∧
      (∀ m, m ∉ fs.map Prod.fst → Tree.find rep1 m = Tree.find rep m) := by
  revert hw hnd hr hdir
  induction fs generalizing rep with
  | nil =>
    intro hw _ _ _
    exact ⟨rep, [], rfl, hw, by simp, fun m _ => rfl⟩
  | cons q rest ih =>
    intro hw hnd hr hdir
    obtain ⟨f, c, mt, r⟩ := q
    have hrq : r = true := hr (f, c, mt, r) (List.mem_cons_self ..)
    subst hrq
    obtain ⟨rep1, a1, hstep, hw1, ⟨mt1, hf1⟩, hframe1⟩ :=
      pass1File_ok rel f c mt rep hw
        (hdir (f, c, mt, true) (List.mem_cons_self ..))
    have hfnot : f ∉ rest.map Prod.fst := (List.nodup_cons.mp hnd).1
    have hdir1 : ∀ p ∈ rest, ∀ t, Tree.find rep1 p.1 ≠ some (Entry.dir t) := by
      intro p hp t
      have hne : p.1 ≠ f := by
        intro hh
        exact hfnot (hh ▸ List.mem_map.mpr ⟨p, hp, rfl⟩)
      rw [hframe1 p.1 hne]
      exact hdir p (List.mem_cons_of_mem _ hp) t
    obtain ⟨rep2, a2, hrec, hw2, hfiles2, hframe2⟩ :=
      ih rep1 hw1 (List.nodup_cons.mp hnd).2
        (fun p hp => hr p (List.mem_cons_of_mem _ hp)) hdir1
    refine ⟨rep2, a1 ++ a2, ?_, hw2, ?_, ?_⟩
    · simp only [pass1Files, hstep, hrec]
    · intro p hp
      rcases List.mem_cons.mp hp with h1 | h1
      · subst h1
        exact ⟨mt1, by rw [hframe2 f hfnot, hf1]⟩
      · exact hfiles2 p h1
    · intro m hm
      simp only [List.map_cons, List.mem_cons, not_or] at hm
      rw [hframe2 m hm.2, hframe1 m (fun hh => hm.1 hh)]

/-! ### Pass 1, walk recursion -/

theorem find_some_mem (l : Tree) (n : String) (e : Entry)
    (h : Tree.find l n = some e) : (n, e) ∈ l := by
  induction l with
  | nil => simp [Tree.find] at h
  | cons p rest ih =>
    obtain ⟨m, e0⟩ := p
    by_cases hm : m = n
    · subst hm
      simp [Tree.find] at h
      subst h
      exact List.mem_cons_self _ _
    · simp only [Tree.find, if_neg hm] at h
      exact List.mem_cons_of_mem _ (ih h)

theorem find_none_not_filesOf (l : Tree) (m : String)
    (h : Tree.find l m = none) : m ∉ (filesOf l).map Prod.fst :=
  fun hm => (find_eq_none_iff_names l m).mp h (mem_filesOf_names l m hm)

theorem noMismatch_rest (n : String) (e : Entry) (rest rep : Tree)
    (h : noMismatch ((n, e) :: rest) rep = true) : noMismatch rest rep = true := by
  cases e <;> simp only [noMismatch, Bool.and_eq_true] at h <;> exact h.2

theorem noMismatch_head_dir (n : String) (ch rest rep t : Tree)
    (h : noMismatch ((n, Entry.dir ch) :: rest) rep = true)
    (hf : Tree.find rep n = some (Entry.dir t)) : noMismatch ch t = true := by
  simp only [noMismatch, hf, Bool.and_eq_true] at h
  simpa using h.1

theorem noMismatch_head_dir_file (n : String) (ch rest rep : Tree)
    (c : String) (mt : Nat) (r : Bool)
    (h : noMismatch ((n, Entry.dir ch) :: rest) rep = true)
    (hf : Tree.find rep n = some (Entry.file c mt r)) : False := by
  simp only [noMismatch, hf, Bool.and_eq_true] at h
  simpa using h.1

theorem pass1Files_body_ok (srcCh : Tree) (rel : List String) (rep : Tree)
    (hw : wfTree srcCh = true) (hr : allReadable srcCh = true)
    (hwrep : wfTree rep = true) (hnm : noMismatch srcCh rep = true) :
    ∃ rep1 a,
      pass1Files rel (filesOf srcCh) rep = (rep1, a, false) ∧
      wfTree rep1 = true ∧
      (∀ p ∈ filesOf srcCh,
        ∃ mt', Tree.find rep1 p.1 = some (Entry.file p.2.1 mt' true)) ∧
      (∀ m, m ∉ (filesOf srcCh).map Prod.fst →
        Tree.find rep1 m = Tree.find rep m) := by
  apply pass1Files_ok (filesOf srcCh) rel rep hwrep (filesOf_names_nodup srcCh hw)
  · intro p hp
    obtain ⟨n0, c0, mt0, r0⟩ := p
    have h1 := of_mem_filesOf srcCh n0 c0 mt0 r0 hp
    have h2 := allReadable_mem srcCh n0 _ hr h1
    simpa [entryReadable] using h2
  · intro p hp t
    obtain ⟨n0, c0, mt0, r0⟩ := p
    exact noMismatch_file_entry srcCh rep n0 c0 mt0 r0 hnm
      (of_mem_filesOf srcCh n0 c0 mt0 r0 hp) t

theorem pass1_main :
    (∀ srcCh rel rep, wfTree srcCh = true → allReadable srcCh = true →
      wfTree rep = true → noMismatch srcCh rep = true →
      ∃ rep2 a, pass1Body srcCh rel rep = (rep2, a, false) ∧ wfTree rep2 = true ∧
        covered srcCh rep2 = true ∧
        (∀ m, Tree.find srcCh m = none → Tree.find rep2 m = Tree.find rep m)) ∧
    (∀ l rel rep, wfTree l = true → allReadable l = true →
      wfTree rep = true → noMismatch l rep = true →
      ∃ rep2 a, pass1Subs l rel rep = (rep2, a, false) ∧ wfTree rep2 = true ∧
        (∀ m, Tree.find l m = none → Tree.find rep2 m = Tree.find rep m) ∧
        (∀ n ch, Tree.find l n = some (Entry.dir ch) →
          ∃ t', Tree.find rep2 n = some (Entry.dir t') ∧ covered ch t' = true) ∧
        (∀ n c mt r, Tree.find l n = some (Entry.file c mt r) →
          Tree.find rep2 n = Tree.find rep n)) := by
  apply pass1Body.mutual_induct
  -- Body: the files loop aborted (impossible under the hypotheses)
  case _ =>
    intro srcCh rel rep rep1 a hFiles hw hr hwrep hnm
    obtain ⟨rep1', a', heq', _, _, _⟩ :=
      pass1Files_body_ok srcCh rel rep hw hr hwrep hnm
    rw [heq'] at hFiles
    simp at hFiles
  -- Body: the files loop succeeded, then the subfolder walk
  case _ =>
    intro srcCh rel rep rep1 a1 hFiles rep2 a2 ab hSubs ih2 hw hr hwrep hnm
    clear hSubs rep2 a2 ab
    obtain ⟨rep1', a1', heq', hw1, hfiles, hframe⟩ :=
      pass1Files_body_ok srcCh rel rep hw hr hwrep hnm
    rw [heq'] at hFiles
    simp only [Prod.mk.injEq] at hFiles
    obtain ⟨h1, h2, _⟩ := hFiles
    rw [h1] at heq' hw1 hfiles hframe
    rw [h2] at heq'
    clear h1 h2 rep1' a1'
    have hnm1 : noMismatch srcCh rep1 = true := by
      apply noMismatch_update srcCh rep rep1 hnm
      · intro n ch hmem
        apply hframe
        intro hin
        obtain ⟨⟨n2, c2, mt2, r2⟩, hmem2, heq2⟩ := List.mem_map.mp hin
        subst heq2
        have hf1 := wf_mem_find srcCh _ _ hw hmem
        have hf2 := wf_mem_find srcCh _ _ hw
          (of_mem_filesOf srcCh n2 c2 mt2 r2 hmem2)
        rw [hf1] at hf2
        exact Entry.noConfusion (Option.some.inj hf2)
      · intro n c mt r hmem t
        obtain ⟨mt', hfound⟩ := hfiles (n, c, mt, r) (mem_filesOf srcCh n c mt r hmem)
        have hfound2 : Tree.find rep1 n = some (Entry.file c mt' true) := hfound
        rw [hfound2]
        intro hcontra
        exact Entry.noConfusion (Option.some.inj hcontra)
    obtain ⟨rep2', a2', hsubs', hw2, sframe, sdir, sfile⟩ :=
      ih2 hw hr hw1 hnm1
    refine ⟨rep2', a1 ++ a2', ?_, hw2, ?_, ?_⟩
    · rw [pass1Body]
      rw [heq']
      simp [hsubs']
    · apply covered_of_parts
      · intro n c mt r hmem
        have hfind := wf_mem_find srcCh _ _ hw hmem
        obtain ⟨mt', hfound⟩ :=
          hfiles (n, c, mt, r) (mem_filesOf srcCh n c mt r hmem)
        have hfound2 : Tree.find rep1 n = some (Entry.file c mt' true) := hfound
        exact ⟨mt', by rw [sfile n c mt r hfind, hfound2]⟩
      · intro n ch hmem
        exact sdir n ch (wf_mem_find srcCh _ _ hw hmem)
    · intro m hm
      rw [sframe m hm, hframe m (find_none_not_filesOf srcCh m hm)]
  -- Subs: empty source listing
  case _ =>
    intro rel rep _ _ hwrep _
    refine ⟨rep, [], ?_, hwrep, fun m _ => rfl, ?_, ?_⟩
    · simp [pass1Subs]
    · intro n ch h
      simp [Tree.find] at h
    · intro n c mt r h
      simp [Tree.find] at h
  -- Subs: head is a source file, skipped by the walk
  case _ =>
    intro f0 c0 mt0 r0 rest rel rep ih hw hr hwrep hnm
    rw [wfTree_cons] at hw
    simp only [Bool.and_eq_true, Option.isNone_iff_eq_none] at hw
    rw [allReadable_cons] at hr
    simp only [Bool.and_eq_true] at hr
    obtain ⟨rep2, a2, hsubs, hw2, frame, dirp, filep⟩ :=
      ih hw.2 hr.2 hwrep (noMismatch_rest _ _ _ _ hnm)
    refine ⟨rep2, a2, ?_, hw2, ?_, ?_, ?_⟩
    · simp only [pass1Subs]
      exact hsubs
    · intro m hm
      simp only [Tree.find] at hm
      by_cases hf : f0 = m
      · simp [hf] at hm
      · rw [if_neg hf] at hm
        exact frame m hm
    · intro n ch h
      simp only [Tree.find] at h
      by_cases hf : f0 = n
      · rw [if_pos hf] at h
        exact Entry.noConfusion (Option.some.inj h)
      · rw [if_neg hf] at h
        exact dirp n ch h
    · intro n c mt r h
      simp only [Tree.find] at h
      by_cases hf : f0 = n
      · subst hf
        rw [frame f0 hw.1.1]
      · rw [if_neg hf] at h
        rw [filep n c mt r h]
  -- Subs: head is a source directory, a file sits at the target (empty dir)
  case _ =>
    intro n ch rest rel rep c mt r hfind _ _ hw hr hwrep hnm
    exact (noMismatch_head_dir_file n ch rest rep c mt r hnm hfind).elim
  -- Subs: head is a source directory, a file sits at the target (non-empty)
  case _ =>
    intro n ch rest rel rep c mt r hfind _ hw hr hwrep hnm
    exact (noMismatch_head_dir_file n ch rest rep c mt r hnm hfind).elim
  -- Subs: head is a source directory, target exists, body aborted (impossible)
  case _ =>
    intro n ch rest rel rep t hfind rep1 a hBody ih1 hw hr hwrep hnm
    rw [wfTree_cons] at hw
    simp only [Bool.and_eq_true, Option.isNone_iff_eq_none] at hw
    rw [allReadable_cons] at hr
    simp only [Bool.and_eq_true] at hr
    have hwt : wfTree t = true := by
      have := wfTree_find rep n _ hwrep hfind
      simpa [wfEntry] using this
    have hwch : wfTree ch = true := by simpa [wfEntry] using hw.1.2
    have hrch : allReadable ch = true := by simpa [entryReadable] using hr.1
    obtain ⟨rep1', a', hbody', _, _, _⟩ :=
      ih1 hwch hrch hwt (noMismatch_head_dir n ch rest rep t hnm hfind)
    rw [hbody'] at hBody
    simp at hBody
  -- Subs: head is a source directory, target exists, body succeeded
  case _ =>
    intro n ch rest rel rep t hfind rep1 a hBody rep2 a2 ab hSubs ih1 ih2
      hw hr hwrep hnm
    clear hSubs rep2 a2 ab
    rw [wfTree_cons] at hw
    simp only [Bool.and_eq_true, Option.isNone_iff_eq_none] at hw
    rw [allReadable_cons] at hr
    simp only [Bool.and_eq_true] at hr
    have hwt : wfTree t = true := by
      have := wfTree_find rep n _ hwrep hfind
      simpa [wfEntry] using this
    have hwch : wfTree ch = true := by simpa [wfEntry] using hw.1.2
    have hrch : allReadable ch = true := by simpa [entryReadable] using hr.1
    obtain ⟨rep1', a', hbody', hw1, hcov1, _⟩ :=
      ih1 hwch hrch hwt (noMismatch_head_dir n ch rest rep t hnm hfind)
    rw [hbody'] at hBody
    simp only [Prod.mk.injEq] at hBody
    obtain ⟨h1, h2, _⟩ := hBody
    rw [h1] at hbody' hw1 hcov1
    rw [h2] at hbody'
    clear h1 h2
    have hwrep' : wfTree (Tree.set rep n (Entry.dir rep1)) = true :=
      wfTree_set rep n _ hwrep (by simpa [wfEntry] using hw1)
    have hset_ne : ∀ p ∈ rest, Tree.find (Tree.set rep n (Entry.dir rep1)) p.1 =
        Tree.find rep p.1 := by
      intro p hp
      apply find_set_ne
      intro hh
      have : p.1 ∈ rest.map Prod.fst := List.mem_map.mpr ⟨p, hp, rfl⟩
      rw [hh] at this
      exact (find_eq_none_iff_names rest n).mp hw.1.1 this
    have hnm' : noMismatch rest (Tree.set rep n (Entry.dir rep1)) = true := by
      rw [noMismatch_ext rest rep _ hset_ne]
      exact noMismatch_rest _ _ _ _ hnm
    obtain ⟨rep2', a2', hsubs', hw2, frame, dirp, filep⟩ :=
      ih2 hw.2 hr.2 hwrep' hnm'
    refine ⟨rep2', a ++ a2', ?_, hw2, ?_, ?_, ?_⟩
    · simp [pass1Subs, hfind, hbody', hsubs']
    · intro m hm
      simp only [Tree.find] at hm
      by_cases hf : n = m
      · simp [hf] at hm
      · rw [if_neg hf] at hm
        rw [frame m hm, find_set_ne rep n m _ (fun hh => hf hh.symm)]
    · intro n' ch' h
      simp only [Tree.find] at h
      by_cases hf : n = n'
      · subst hf
        rw [if_pos rfl] at h
        have hch : ch' = ch := by
          have := Option.some.inj h
          injection this with h4
          exact h4.symm
        subst hch
        refine ⟨rep1, ?_, hcov1⟩
        rw [frame n hw.1.1, find_set_self]
      · rw [if_neg hf] at h
        exact dirp n' ch' h
    · intro n' c mt r h
      simp only [Tree.find] at h
      by_cases hf : n = n'
      · rw [if_pos hf] at h
        exact absurd (Option.some.inj h) (fun hh => Entry.noConfusion hh)
      · rw [if_neg hf] at h
        rw [filep n' c mt r h, find_set_ne rep n n' _ (fun hh => hf hh.symm)]
  -- Subs: head is a source directory, no target, body aborted (impossible)
  case _ =>
    intro n ch rest rel rep hfind rep1 a hBody ih1 hw hr hwrep hnm
    rw [wfTree_cons] at hw
    simp only [Bool.and_eq_true, Option.isNone_iff_eq_none] at hw
    rw [allReadable_cons] at hr
    simp only [Bool.and_eq_true] at hr
    have hwch : wfTree ch = true := by simpa [wfEntry] using hw.1.2
    have hrch : allReadable ch = true := by simpa [entryReadable] using hr.1
    obtain ⟨rep1', a', hbody', _, _, _⟩ :=
      ih1 hwch hrch (by simp [wfTree]) (noMismatch_nil_right ch)
    rw [hbody'] at hBody
    simp at hBody
  -- Subs: head is a source directory, no target, created then body succeeded
  case _ =>
    intro n ch rest rel rep hfind rep1 a hBody rep2 a2 ab hSubs ih1 ih2
      hw hr hwrep hnm
    clear hSubs rep2 a2 ab
    rw [wfTree_cons] at hw
    simp only [Bool.and_eq_true, Option.isNone_iff_eq_none] at hw
    rw [allReadable_cons] at hr
    simp only [Bool.and_eq_true] at hr
    have hwch : wfTree ch = true := by simpa [wfEntry] using hw.1.2
    have hrch : allReadable ch = true := by simpa [entryReadable] using hr.1
    obtain ⟨rep1', a', hbody', hw1, hcov1, _⟩ :=
      ih1 hwch hrch (by simp [wfTree]) (noMismatch_nil_right ch)
    rw [hbody'] at hBody
    simp only [Prod.mk.injEq] at hBody
    obtain ⟨h1, h2, _⟩ := hBody
    rw [h1] at hbody' hw1 hcov1
    rw [h2] at hbody'
    clear h1 h2
    have hwrep' : wfTree (Tree.set rep n (Entry.dir rep1)) = true :=
      wfTree_set rep n _ hwrep (by simpa [wfEntry] using hw1)
    have hset_ne : ∀ p ∈ rest, Tree.find (Tree.set rep n (Entry.dir rep1)) p.1 =
        Tree.find rep p.1 := by
      intro p hp
      apply find_set_ne
      intro hh
      have : p.1 ∈ rest.map Prod.fst := List.mem_map.mpr ⟨p, hp, rfl⟩
      rw [hh] at this
      exact (find_eq_none_iff_names rest n).mp hw.1.1 this
    have hnm' : noMismatch rest (Tree.set rep n (Entry.dir rep1)) = true := by
      rw [noMismatch_ext rest rep _ hset_ne]
      exact noMismatch_rest _ _ _ _ hnm
    obtain ⟨rep2', a2', hsubs', hw2, frame, dirp, filep⟩ :=
      ih2 hw.2 hr.2 hwrep' hnm'
    refine ⟨rep2', .created_dir .replica (rel ++ [n]) :: (a ++ a2'), ?_, hw2, ?_, ?_, ?_⟩
    · simp [pass1Subs, hfind, hbody', hsubs']
    · intro m hm
      simp only [Tree.find] at hm
      by_cases hf : n = m
      · simp [hf] at hm
      · rw [if_neg hf] at hm
        rw [frame m hm, find_set_ne rep n m _ (fun hh => hf hh.symm)]
    · intro n' ch' h
      simp only [Tree.find] at h
      by_cases hf : n = n'
      · subst hf
        rw [if_pos rfl] at h
        have hch : ch' = ch := by
          have := Option.some.inj h
          injection this with h4
          exact h4.symm
        subst hch
        refine ⟨rep1, ?_, hcov1⟩
        rw [frame n hw.1.1, find_set_self]
      · rw [if_neg hf] at h
        exact dirp n' ch' h
    · intro n' c mt r h
      simp only [Tree.find] at h
      by_cases hf : n = n'
      · rw [if_pos hf] at h
        exact absurd (Option.some.inj h) (fun hh => Entry.noConfusion hh)
      · rw [if_neg hf] at h
        rw [filep n' c mt r h, find_set_ne rep n n' _ (fun hh => hf hh.symm)]

/-! ### Pass 2: pointwise characterization, well-formedness, mirror -/

theorem pass2Visit_fst (src : Tree) (rel : List String) (rep : Tree) :
    (pass2Visit src rel rep).1 = (pass2Subs src rel rep).1 := by
  rw [pass2Visit]

theorem find_pass2Subs (src : Tree) (rel : List String) (l : Tree) (m : String) :
    Tree.find (pass2Subs src rel l).1 m =
      (match Tree.find l m with
       | none => none
       | some e =>
         if (lookupPath src (rel ++ [m])).isSome then
           some (match e with
                 | .file c mt r => Entry.file c mt r
                 | .dir ch => Entry.dir (pass2Visit src (rel ++ [m]) ch).1)
         else none) := by
  induction l with
  | nil => simp [pass2Subs, Tree.find]
  | cons p rest ih =>
    obtain ⟨n, e⟩ := p
    by_cases hk : keepChild src rel (n, e)
    · cases e with
      | file c mt r =>
        rw [pass2Subs, if_pos hk]
        rcases h2 : pass2Subs src rel rest with ⟨rest2, a2⟩
        by_cases hm : n = m
        · subst hm
          have hsome := hk
          simp only [keepChild] at hsome
          simp [Tree.find, hsome]
        · simp only [Tree.find, if_neg hm]
          have := ih
          rw [h2] at this
          exact this
      | dir ch =>
        rw [pass2Subs, if_pos hk]
        rcases h1 : pass2Visit src (rel ++ [n]) ch with ⟨ch2, a1⟩
        rcases h2 : pass2Subs src rel rest with ⟨rest2, a2⟩
        by_cases hm : n = m
        · subst hm
          have hsome := hk
          simp only [keepChild] at hsome
          have h1' : (pass2Visit src (rel ++ [n]) ch).1 = ch2 := by rw [h1]
          simp [Tree.find, hsome, h1']
        · simp only [Tree.find, if_neg hm]
          have := ih
          rw [h2] at this
          exact this
    · have hrw : pass2Subs src rel ((n, e) :: rest) = pass2Subs src rel rest := by
        cases e <;> rw [pass2Subs, if_neg hk]
      rw [hrw]
      by_cases hm : n = m
      · subst hm
        have hnone := hk
        simp only [keepChild, Bool.not_eq_true] at hnone
        rw [ih]
        rcases hr : Tree.find rest n with _ | e'
        · simp [Tree.find, hnone]
        · simp [Tree.find, hnone]
      · simp only [Tree.find, if_neg hm]
        exact ih

theorem pass2_wf (src : Tree) :
    (∀ rel rep, wfTree rep = true → wfTree (pass2Visit src rel rep).1 = true) ∧
    (∀ rel l, wfTree l = true → wfTree (pass2Subs src rel l).1 = true) := by
  apply pass2Visit.mutual_induct src
  · intro rel rep rep2 a hsubs ih hw
    rw [pass2Visit_fst]
    exact ih hw
  · intro rel _
    simp [pass2Subs, wfTree]
  · intro rel n rest c mt r rep2 a hsubs hk ih hw
    rw [wfTree_cons] at hw
    simp only [Bool.and_eq_true, Option.isNone_iff_eq_none] at hw
    rw [pass2Subs, if_pos hk, hsubs]
    rw [wfTree_cons]
    have hfind : Tree.find rep2 n = none := by
      have h3 := find_pass2Subs src rel rest n
      rw [hsubs, hw.1.1] at h3
      exact h3
    have hw2 : wfTree rep2 = true := by
      have := ih hw.2
      rwa [hsubs] at this
    simp [hfind, hw2, wfEntry]
  · intro rel n rest ch ch2 a1 hvisit rep2 a2 hsubs hk ih1 ih2 hw
    rw [wfTree_cons] at hw
    simp only [Bool.and_eq_true, Option.isNone_iff_eq_none] at hw
    rw [pass2Subs, if_pos hk, hvisit, hsubs]
    rw [wfTree_cons]
    have hfind : Tree.find rep2 n = none := by
      have h3 := find_pass2Subs src rel rest n
      rw [hsubs, hw.1.1] at h3
      exact h3
    have hw2 : wfTree rep2 = true := by
      have := ih2 hw.2
      rwa [hsubs] at this
    have hwch2 : wfTree ch2 = true := by
      have hwch : wfTree ch = true := by simpa [wfEntry] using hw.1.2
      have := ih1 hwch
      rwa [hvisit] at this
    simp [hfind, hw2, wfEntry, hwch2]
  · intro rel n e rest hk ih hw
    rw [wfTree_cons] at hw
    simp only [Bool.and_eq_true] at hw
    have hrw : pass2Subs src rel ((n, e) :: rest) = pass2Subs src rel rest := by
      cases e <;> rw [pass2Subs, if_neg hk]
    rw [hrw]
    exact ih hw.2

theorem pass2_mirrors (srcRoot s : Tree) (rel : List String) (rep : Tree)
    (hpath : lookupPath srcRoot rel = some (Entry.dir s))
    (hws : wfTree s = true) (hwrep : wfTree rep = true)
    (hcov : covered s rep = true) :
    mirrors s (pass2Visit srcRoot rel rep).1 = true ∧
    covered s (pass2Visit srcRoot rel rep).1 = true := by
  have hfind2 : ∀ m, Tree.find (pass2Visit srcRoot rel rep).1 m =
      (match Tree.find rep m with
       | none => none
       | some e =>
         if (Tree.find s m).isSome then
           some (match e with
                 | .file c mt r => Entry.file c mt r
                 | .dir ch => Entry.dir (pass2Visit srcRoot (rel ++ [m]) ch).1)
         else none) := by
    intro m
    rw [pass2Visit_fst, find_pass2Subs, lookupPath_append_single, hpath]
  have hwrep2 : wfTree (pass2Visit srcRoot rel rep).1 = true :=
    (pass2_wf srcRoot).1 rel rep hwrep
  constructor
  · apply mirrors_of_pointwise s _ hws hwrep2
    intro m
    rw [hfind2 m]
    rcases hs : Tree.find s m with _ | es
    · rcases hr : Tree.find rep m with _ | er
      · simp [entryRel]
      · simp [entryRel]
    · cases es with
      | file c mt r =>
        obtain ⟨mt', hrf⟩ := covered_find_file s rep hcov m c mt r hs
        rw [hrf]
        simp [entryRel]
      | dir s' =>
        obtain ⟨t', hrf, hcov'⟩ := covered_find_dir s rep hcov m s' hs
        rw [hrf]
        have hpath' : lookupPath srcRoot (rel ++ [m]) = some (Entry.dir s') := by
          rw [lookupPath_append_single, hpath]
          exact hs
        have hws' : wfTree s' = true := by
          have := wfTree_find s m _ hws hs
          simpa [wfEntry] using this
        have hwt' : wfTree t' = true := by
          have := wfTree_find rep m _ hwrep hrf
          simpa [wfEntry] using this
        have hrec := pass2_mirrors srcRoot s' (rel ++ [m]) t' hpath' hws' hwt' hcov'
        simp [entryRel, hrec.1]
  · apply covered_of_parts
    · intro n c mt r hmem
      have hs := wf_mem_find s _ _ hws hmem
      obtain ⟨mt', hrf⟩ := covered_find_file s rep hcov n c mt r hs
      refine ⟨mt', ?_⟩
      rw [hfind2 n, hrf, hs]
      simp
    · intro n ch hmem
      have hs := wf_mem_find s _ _ hws hmem
      obtain ⟨t', hrf, hcov'⟩ := covered_find_dir s rep hcov n ch hs
      have hpath' : lookupPath srcRoot (rel ++ [n]) = some (Entry.dir ch) := by
        rw [lookupPath_append_single, hpath]
        exact hs
      have hws' : wfTree ch = true := by
        have := wfTree_find s n _ hws hs
        simpa [wfEntry] using this
      have hwt' : wfTree t' = true := by
        have := wfTree_find rep n _ hwrep hrf
        simpa [wfEntry] using this
      have hrec := pass2_mirrors srcRoot ch (rel ++ [n]) t' hpath' hws' hwt' hcov'
      refine ⟨(pass2Visit srcRoot (rel ++ [n]) t').1, ?_, hrec.2⟩
      rw [hfind2 n, hrf, hs]
      simp
termination_by sizeOf s
decreasing_by
  · have h1 := sizeOf_find_lt s _ _ hs
    simp only [Entry.dir.sizeOf_spec] at h1
    omega
  · have h1 := sizeOf_find_lt s _ _ hs
    simp only [Entry.dir.sizeOf_spec] at h1
    omega

/-! ### Idempotence: a pass over an already-converged replica does nothing -/

theorem covered_mem_file (l rep : Tree) (n c : String) (mt : Nat) (r : Bool)
    (hc : covered l rep = true) (h : (n, Entry.file c mt r) ∈ l) :
    ∃ mt', Tree.find rep n = some (Entry.file c mt' true) := by
  induction l with
  | nil => simp at h
  | cons p rest ih =>
    rcases List.mem_cons.mp h with h1 | h1
    · rw [← h1] at hc
      simp only [covered, Bool.and_eq_true] at hc
      rcases hfind : Tree.find rep n with _ | e' <;> rw [hfind] at hc
      · simp at hc
      · cases e' with
        | file c2 mt2 r2 =>
          simp only [Bool.and_eq_true, beq_iff_eq] at hc
          exact ⟨mt2, by rw [hc.1.1, hc.1.2]⟩
        | dir ch2 => simp at hc
    · obtain ⟨m, e0⟩ := p
      have hrest : covered rest rep = true := by
        cases e0 <;> simp only [covered, Bool.and_eq_true] at hc <;> exact hc.2
      exact ih hrest h1

theorem covered_mem_dir (l rep : Tree) (n : String) (ch : Tree)
    (hc : covered l rep = true) (h : (n, Entry.dir ch) ∈ l) :
    ∃ t', Tree.find rep n = some (Entry.dir t') ∧ covered ch t' = true := by
  induction l with
  | nil => simp at h
  | cons p rest ih =>
    rcases List.mem_cons.mp h with h1 | h1
    · rw [← h1] at hc
      simp only [covered, Bool.and_eq_true] at hc
      rcases hfind : Tree.find rep n with _ | e' <;> rw [hfind] at hc
      · simp at hc
      · cases e' with
        | file c2 mt2 r2 => simp at hc
        | dir ch2 => exact ⟨ch2, rfl, hc.1⟩
    · obtain ⟨m, e0⟩ := p
      have hrest : covered rest rep = true := by
        cases e0 <;> simp only [covered, Bool.and_eq_true] at hc <;> exact hc.2
      exact ih hrest h1

theorem pass1Files_idem (rel : List String) (fs : List (String × String × Nat × Bool))
    (rep : Tree)
    (h : ∀ p ∈ fs, p.2.2.2 = true ∧
      ∃ mt', Tree.find rep p.1 = some (Entry.file p.2.1 mt' true)) :
    pass1Files rel fs rep = (rep, [], false) := by
  induction fs with
  | nil => rfl
  | cons q rest ih =>
    obtain ⟨f, c, mt, r⟩ := q
    obtain ⟨hr, mt', hf⟩ := h (f, c, mt, r) (List.mem_cons_self ..)
    have hr2 : r = true := hr
    subst hr2
    have hstep : pass1File rel f c mt true rep = (rep, [], false) := by
      simp [pass1File, hf, generate_md5_checksum]
    have hrec : pass1Files rel rest rep = (rep, [], false) :=
      ih (fun p hp => h p (List.mem_cons_of_mem _ hp))
    simp [pass1Files, hstep, hrec]

theorem pass1_idem :
    (∀ srcCh rel rep, allReadable srcCh = true → covered srcCh rep = true →
      pass1Body srcCh rel rep = (rep, [], false)) ∧
    (∀ l rel rep, allReadable l = true → covered l rep = true →
      pass1Subs l rel rep = (rep, [], false)) := by
  have hfs : ∀ (srcCh rep : Tree), allReadable srcCh = true → covered srcCh rep = true →
      ∀ p ∈ filesOf srcCh, p.2.2.2 = true ∧
        ∃ mt', Tree.find rep p.1 = some (Entry.file p.2.1 mt' true) := by
    intro srcCh rep hr hc p hp
    obtain ⟨n0, c0, mt0, r0⟩ := p
    have hmem := of_mem_filesOf srcCh n0 c0 mt0 r0 hp
    constructor
    · have := allReadable_mem srcCh n0 _ hr hmem
      simpa [entryReadable] using this
    · exact covered_mem_file srcCh rep n0 c0 mt0 r0 hc hmem
  apply pass1Body.mutual_induct
  · intro srcCh rel rep rep1 a hFiles hr hc
    rw [pass1Files_idem rel _ rep (hfs srcCh rep hr hc)] at hFiles
    simp at hFiles
  · intro srcCh rel rep rep1 a1 hFiles rep2 a2 ab hSubs ih2 hr hc
    have hidem := pass1Files_idem rel _ rep (hfs srcCh rep hr hc)
    rw [hidem] at hFiles
    simp only [Prod.mk.injEq] at hFiles
    obtain ⟨h1, h2, _⟩ := hFiles
    rw [← h1] at ih2
    have hsub := ih2 hr hc
    rw [pass1Body, hidem]
    simp [hsub]
  · intro rel rep _ _
    simp [pass1Subs]
  · intro f0 c0 mt0 r0 rest rel rep ih hr hc
    rw [allReadable_cons] at hr
    simp only [Bool.and_eq_true] at hr
    have hcrest : covered rest rep = true := by
      simp only [covered, Bool.and_eq_true] at hc
      exact hc.2
    have := ih hr.2 hcrest
    simp only [pass1Subs]
    exact this
  · intro n ch rest rel rep c mt r hfind _ _ _ hc
    obtain ⟨t', hf, _⟩ :=
      covered_mem_dir ((n, Entry.dir ch) :: rest) rep n ch hc (List.mem_cons_self ..)
    rw [hfind] at hf
    exact Entry.noConfusion (Option.some.inj hf)
  · intro n ch rest rel rep c mt r hfind _ _ hc
    obtain ⟨t', hf, _⟩ :=
      covered_mem_dir ((n, Entry.dir ch) :: rest) rep n ch hc (List.mem_cons_self ..)
    rw [hfind] at hf
    exact Entry.noConfusion (Option.some.inj hf)
  · intro n ch rest rel rep t hfind rep1 a hBody ih1 hr hc
    rw [allReadable_cons] at hr
    simp only [Bool.and_eq_true] at hr
    have hrch : allReadable ch = true := by simpa [entryReadable] using hr.1
    obtain ⟨t', hf, hcch⟩ :=
      covered_mem_dir ((n, Entry.dir ch) :: rest) rep n ch hc (List.mem_cons_self ..)
    rw [hfind] at hf
    have ht : t' = t := by
      injection Option.some.inj hf with hh
      exact hh.symm
    subst ht
    have := ih1 hrch hcch
    rw [this] at hBody
    simp at hBody
  · intro n ch rest rel rep t hfind rep1 a hBody rep2 a2 ab hSubs ih1 ih2 hr hc
    rw [allReadable_cons] at hr
    simp only [Bool.and_eq_true] at hr
    have hrch : allReadable ch = true := by simpa [entryReadable] using hr.1
    obtain ⟨t', hf, hcch⟩ :=
      covered_mem_dir ((n, Entry.dir ch) :: rest) rep n ch hc (List.mem_cons_self ..)
    rw [hfind] at hf
    have ht : t' = t := by
      injection Option.some.inj hf with hh
      exact hh.symm
    subst ht
    have hbody1 := ih1 hrch hcch
    rw [hbody1] at hBody
    simp only [Prod.mk.injEq] at hBody
    obtain ⟨h1, h2, _⟩ := hBody
    have hset : Tree.set rep n (Entry.dir t') = rep := set_eq_self rep n _ hfind
    rw [← h1] at ih2
    rw [hset] at ih2
    have hcrest : covered rest rep = true := by
      simp only [covered, Bool.and_eq_true] at hc
      exact hc.2
    have hsub := ih2 hr.2 hcrest
    simp [pass1Subs, hfind, hbody1, hset, hsub]
  · intro n ch rest rel rep hfind rep1 a hBody ih1 hr hc
    obtain ⟨t', hf, _⟩ :=
      covered_mem_dir ((n, Entry.dir ch) :: rest) rep n ch hc (List.mem_cons_self ..)
    rw [hfind] at hf
    exact Option.noConfusion hf
  · intro n ch rest rel rep hfind rep1 a hBody rep2 a2 ab hSubs ih1 ih2 hr hc
    obtain ⟨t', hf, _⟩ :=
      covered_mem_dir ((n, Entry.dir ch) :: rest) rep n ch hc (List.mem_cons_self ..)
    rw [hfind] at hf
    exact Option.noConfusion hf

theorem pass2_idem (srcRoot : Tree) :
    (∀ rel rep, ∀ s : Tree, lookupPath srcRoot rel = some (Entry.dir s) →
      wfTree s = true → wfTree rep = true → mirrors s rep = true →
      pass2Visit srcRoot rel rep = (rep, [])) ∧
    (∀ rel l, (∀ p ∈ l, keepChild srcRoot rel p = true) →
      (∀ n ch, (n, Entry.dir ch) ∈ l →
        ∃ s', lookupPath srcRoot (rel ++ [n]) = some (Entry.dir s') ∧
          wfTree s' = true ∧ wfTree ch = true ∧ mirrors s' ch = true) →
      pass2Subs srcRoot rel l = (l, [])) := by
  apply pass2Visit.mutual_induct srcRoot
  · intro rel rep rep2 a hsubs ih s hpath hws hwrep hm
    have hkeep : ∀ p ∈ rep, keepChild srcRoot rel p = true := by
      intro p hp
      obtain ⟨n, e⟩ := p
      have hfind := wf_mem_find rep n e hwrep hp
      have hrel := mirrors_pointwise s rep hm n
      rw [hfind] at hrel
      simp only [keepChild, lookupPath_append_single, hpath]
      rcases hsn : Tree.find s n with _ | es
      · rw [hsn] at hrel
        cases e <;> simp [entryRel] at hrel
      · simp [hsn]
    have hdirs : ∀ n ch, (n, Entry.dir ch) ∈ rep →
        ∃ s', lookupPath srcRoot (rel ++ [n]) = some (Entry.dir s') ∧
          wfTree s' = true ∧ wfTree ch = true ∧ mirrors s' ch = true := by
      intro n ch hp
      have hfind := wf_mem_find rep n _ hwrep hp
      have hrel := mirrors_pointwise s rep hm n
      rw [hfind] at hrel
      rcases hsn : Tree.find s n with _ | es
      · rw [hsn] at hrel
        simp [entryRel] at hrel
      · rw [hsn] at hrel
        cases es with
        | file c mt r => simp [entryRel] at hrel
        | dir s' =>
          simp only [entryRel] at hrel
          refine ⟨s', ?_, ?_, ?_, hrel⟩
          · rw [lookupPath_append_single, hpath]
            exact hsn
          · have := wfTree_find s n _ hws hsn
            simpa [wfEntry] using this
          · have := wfTree_find rep n _ hwrep hfind
            simpa [wfEntry] using this
    have hsubs2 := ih hkeep hdirs
    have hdd : (rep.filterMap fun p =>
        match p.2 with
        | Entry.dir _ =>
          if keepChild srcRoot rel p then none
          else some (Action.deleted_dir .replica (rel ++ [p.1]))
        | _ => none) = [] := by
      rw [List.filterMap_eq_nil_iff]
      intro p hp
      have hk := hkeep p hp
      obtain ⟨n, e⟩ := p
      cases e <;> simp [hk]
    have hdf : (rep.filterMap fun p =>
        match p.2 with
        | Entry.file _ _ _ =>
          if keepChild srcRoot rel p then none
          else some (Action.deleted_file .replica (rel ++ [p.1]))
        | _ => none) = [] := by
      rw [List.filterMap_eq_nil_iff]
      intro p hp
      have hk := hkeep p hp
      obtain ⟨n, e⟩ := p
      cases e <;> simp [hk]
    rw [pass2Visit]
    simp only [hsubs2, hdd, hdf]
    simp
  · intro rel _ _
    simp [pass2Subs]
  · intro rel n rest c0 mt0 r0 rep2 a3 hsubs hk ih hkeep hdirs
    have hrec := ih (fun p hp => hkeep p (List.mem_cons_of_mem _ hp))
      (fun n2 ch2 hp => hdirs n2 ch2 (List.mem_cons_of_mem _ hp))
    simp [pass2Subs, hk, hrec]
  · intro rel n rest ch rep2 a1 hvisit rep2b a2 hsubs hk ih1 ih2 hkeep hdirs
    obtain ⟨s', hp', hws', hwch, hm'⟩ := hdirs n ch (List.mem_cons_self ..)
    have hv := ih1 s' hp' hws' hwch hm'
    have hrec := ih2 (fun p hp => hkeep p (List.mem_cons_of_mem _ hp))
      (fun n2 ch2 hp => hdirs n2 ch2 (List.mem_cons_of_mem _ hp))
    simp [pass2Subs, hk, hv, hrec]
  · intro rel n e rest hk ih hkeep hdirs
    exact absurd (hkeep (n, e) (List.mem_cons_self ..)) hk

/-! ### The shape of the report: pass 1 creates and copies, pass 2 deletes,
always inside the replica -/

theorem pass1File_actions (rel : List String) (f c : String) (mt : Nat) (r : Bool)
    (rep : Tree) : ((pass1File rel f c mt r rep).2.1.all pass1ActionOk) = true := by
  rcases hf : Tree.find rep f with _ | e
  · cases r <;> simp [pass1File, hf, pass1ActionOk]
  · cases e with
    | file c' mt' r' =>
      by_cases heq : generate_md5_checksum (some (.file c mt r)) =
          generate_md5_checksum (some (.file c' mt' r'))
      · simp [pass1File, hf, heq]
      · cases r <;> simp [pass1File, hf, heq, pass1ActionOk]
    | dir t =>
      by_cases heq : generate_md5_checksum (some (.file c mt r)) =
          generate_md5_checksum (some (.dir t))
      · simp [pass1File, hf, heq]
      · rcases hft : Tree.find t f with _ | e2
        · simp [pass1File, hf, heq, hft, pass1ActionOk]
        · cases e2 <;> simp [pass1File, hf, heq, hft, pass1ActionOk]

theorem pass1Files_actions (rel : List String)
    (fs : List (String × String × Nat × Bool)) (rep : Tree) :
    ((pass1Files rel fs rep).2.1.all pass1ActionOk) = true := by
  induction fs generalizing rep with
  | nil => simp [pass1Files]
  | cons q rest ih =>
    obtain ⟨f, c, mt, r⟩ := q
    have h1 := pass1File_actions rel f c mt r rep
    rcases h : pass1File rel f c mt r rep with ⟨rep1, a, ab⟩
    rw [h] at h1
    cases ab
    · have h3 := ih rep1
      rcases h2 : pass1Files rel rest rep1 with ⟨rep2, a2, ab2⟩
      rw [h2] at h3
      simp only [pass1Files, h, h2]
      simp only at h1 h3
      simp [List.all_append, h1, h3]
    · simp only [pass1Files, h]
      simpa using h1

theorem pass1_actions :
    (∀ srcCh rel rep, ((pass1Body srcCh rel rep).2.1.all pass1ActionOk) = true) ∧
    (∀ l rel rep, ((pass1Subs l rel rep).2.1.all pass1ActionOk) = true) := by
  apply pass1Body.mutual_induct
  · intro srcCh rel rep rep1 a hFiles
    have h1 := pass1Files_actions rel (filesOf srcCh) rep
    rw [hFiles] at h1
    simp only at h1
    simp only [pass1Body, hFiles]
    exact h1
  · intro srcCh rel rep rep1 a1 hFiles rep2 a2 ab hSubs ih2
    have h1 := pass1Files_actions rel (filesOf srcCh) rep
    rw [hFiles] at h1
    rw [hSubs] at ih2
    simp only at h1 ih2
    simp only [pass1Body, hFiles, hSubs]
    rw [List.all_append, h1, ih2]
    rfl
  · intro rel rep
    simp [pass1Subs]
  · intro f0 c0 mt0 r0 rest rel rep ih
    simp only [pass1Subs]
    exact ih
  · intro n ch rest rel rep c mt r hfind hempty ih
    have hgoal : pass1Subs ((n, Entry.dir ch) :: rest) rel rep = pass1Subs rest rel rep := by
      simp [pass1Subs, hfind, hempty]
    rw [hgoal]
    exact ih
  · intro n ch rest rel rep c mt r hfind hempty
    have hgoal : pass1Subs ((n, Entry.dir ch) :: rest) rel rep = (rep, [], true) := by
      simp [pass1Subs, hfind, hempty]
    rw [hgoal]
    rfl
  · intro n ch rest rel rep t hfind rep1 a hBody ih1
    rw [hBody] at ih1
    simp only at ih1
    simp only [pass1Subs, hfind, hBody]
    exact ih1
  · intro n ch rest rel rep t hfind rep1 a hBody rep2 a2 ab hSubs ih1 ih2
    rw [hBody] at ih1
    rw [hSubs] at ih2
    simp only at ih1 ih2
    simp only [pass1Subs, hfind, hBody, hSubs]
    rw [List.all_append, ih1, ih2]
    rfl
  · intro n ch rest rel rep hfind rep1 a hBody ih1
    rw [hBody] at ih1
    simp only at ih1
    simp only [pass1Subs, hfind, hBody]
    rw [List.all_cons, ih1]
    rfl
  · intro n ch rest rel rep hfind rep1 a hBody rep2 a2 ab hSubs ih1 ih2
    rw [hBody] at ih1
    rw [hSubs] at ih2
    simp only at ih1 ih2
    simp only [pass1Subs, hfind, hBody, hSubs]
    rw [List.all_cons, List.all_append, ih1, ih2]
    rfl

theorem pass2_actions (src : Tree) :
    (∀ rel rep, ((pass2Visit src rel rep).2.all pass2ActionOk) = true) ∧
    (∀ rel l, ((pass2Subs src rel l).2.all pass2ActionOk) = true) := by
  apply pass2Visit.mutual_induct src
  · intro rel rep rep2 a hsubs ih
    rw [hsubs] at ih
    simp only at ih
    have hdd : ∀ x ∈ (rep.filterMap fun p =>
        match p.2 with
        | Entry.dir _ =>
          if keepChild src rel p then none
          else some (Action.deleted_dir .replica (rel ++ [p.1]))
        | _ => none), pass2ActionOk x = true := by
      intro x hx
      obtain ⟨p, hp, hfp⟩ := List.mem_filterMap.mp hx
      obtain ⟨n, e⟩ := p
      cases e with
      | file c mt r => simp at hfp
      | dir ch =>
        by_cases hk : keepChild src rel (n, Entry.dir ch) <;> simp [hk] at hfp
        rw [← hfp]
        rfl
    have hdf : ∀ x ∈ (rep.filterMap fun p =>
        match p.2 with
        | Entry.file _ _ _ =>
          if keepChild src rel p then none
          else some (Action.deleted_file .replica (rel ++ [p.1]))
        | _ => none), pass2ActionOk x = true := by
      intro x hx
      obtain ⟨p, hp, hfp⟩ := List.mem_filterMap.mp hx
      obtain ⟨n, e⟩ := p
      cases e with
      | dir ch => simp at hfp
      | file c mt r =>
        by_cases hk : keepChild src rel (n, Entry.file c mt r) <;> simp [hk] at hfp
        rw [← hfp]
        rfl
    rw [pass2Visit]
    simp only [hsubs]
    rw [List.all_eq_true]
    intro x hx
    simp only [List.mem_append] at hx
    rcases hx with (hx | hx) | hx
    · exact hdd x hx
    · exact hdf x hx
    · exact (List.all_eq_true.mp ih) x hx
  · intro rel
    simp [pass2Subs]
  · intro rel n rest c0 mt0 r0 rep2 a3 hsubs hk ih
    rw [hsubs] at ih
    simp only at ih
    have hgoal : pass2Subs src rel ((n, Entry.file c0 mt0 r0) :: rest) =
        ((n, Entry.file c0 mt0 r0) :: rep2, a3) := by
      simp [pass2Subs, hk, hsubs]
    rw [hgoal]
    exact ih
  · intro rel n rest ch rep2 a1 hvisit rep2b a2 hsubs hk ih1 ih2
    rw [hvisit] at ih1
    rw [hsubs] at ih2
    simp only at ih1 ih2
    have hgoal : pass2Subs src rel ((n, Entry.dir ch) :: rest) =
        ((n, Entry.dir rep2) :: rep2b, a1 ++ a2) := by
      simp [pass2Subs, hk, hvisit, hsubs]
    rw [hgoal]
    simp only
    rw [List.all_append, ih1, ih2]
    rfl
  · intro rel n e rest hk ih
    have hrw : pass2Subs src rel ((n, e) :: rest) = pass2Subs src rel rest := by
      cases e <;> rw [pass2Subs, if_neg hk]
    rw [hrw]
    exact ih

/-! ### Assembly: one complete call of synchronize_folders -/

theorem synchronize_some_some (s r : Tree) :
    synchronize_folders ⟨some s, some r⟩ =
      (⟨some s, some (syncPasses s r).1⟩, (syncPasses s r).2) := by
  rcases h : syncPasses s r with ⟨r2, a⟩
  simp only [synchronize_folders, h]

theorem synchronize_none (r0 : Option Tree) :
    synchronize_folders ⟨none, r0⟩ = (⟨none, r0⟩, []) := rfl

theorem syncPasses_mirrors (s rep0 : Tree) (hws : wfTree s = true)
    (hrs : allReadable s = true) (hw0 : wfTree rep0 = true)
    (hnm : noMismatch s rep0 = true) :
    mirrors s (syncPasses s rep0).1 = true ∧
    covered s (syncPasses s rep0).1 = true ∧
    wfTree (syncPasses s rep0).1 = true := by
  obtain ⟨rep1, a1, hb, hw1, hcov, _⟩ := pass1_main.1 s [] rep0 hws hrs hw0 hnm
  have hpath : lookupPath s [] = some (Entry.dir s) := rfl
  have h2 := pass2_mirrors s s [] rep1 hpath hws hw1 hcov
  have hw2 := (pass2_wf s).1 [] rep1 hw1
  have hfst : (syncPasses s rep0).1 = (pass2Visit s [] rep1).1 := by
    rcases hv : pass2Visit s [] rep1 with ⟨rep2, a2⟩
    simp only [syncPasses, hb, hv]
  rw [hfst]
  exact ⟨h2.1, h2.2, hw2⟩

theorem syncPasses_idem (s rep : Tree) (hws : wfTree s = true)
    (hrs : allReadable s = true) (hwrep : wfTree rep = true)
    (hcov : covered s rep = true) (hm : mirrors s rep = true) :
    syncPasses s rep = (rep, []) := by
  have h1 := pass1_idem.1 s [] rep hrs hcov
  have h2 := (pass2_idem s).1 [] rep s rfl hws hwrep hm
  simp only [syncPasses, h1, h2]
  rfl

theorem syncPasses_shape (s rep0 : Tree) :
    ∃ a1 a2, (syncPasses s rep0).2 = a1 ++ a2 ∧
      a1.all pass1ActionOk = true ∧ a2.all pass2ActionOk = true := by
  have h1 := pass1_actions.1 s [] rep0
  rcases hb : pass1Body s [] rep0 with ⟨rep1, a1, ab⟩
  rw [hb] at h1
  simp only at h1
  cases ab
  · have h2 := (pass2_actions s).1 [] rep1
    rcases hv : pass2Visit s [] rep1 with ⟨rep2, a2⟩
    rw [hv] at h2
    simp only at h2
    refine ⟨a1, a2, ?_, h1, h2⟩
    simp only [syncPasses, hb, hv]
  · refine ⟨a1, [], ?_, h1, rfl⟩
    simp only [syncPasses, hb]
    simp

theorem synchronize_shape (st : FSState) :
    ∃ a1 a2, (synchronize_folders st).2 = a1 ++ a2 ∧
      a1.all pass1ActionOk = true ∧ a2.all pass2ActionOk = true ∧
      (synchronize_folders st).1.src = st.src := by
  obtain ⟨src0, rep0⟩ := st
  cases src0 with
  | none => exact ⟨[], [], rfl, rfl, rfl, rfl⟩
  | some s =>
    cases rep0 with
    | none =>
      obtain ⟨a1, a2, heq, h1, h2⟩ := syncPasses_shape s []
      refine ⟨.created_dir .replica [] :: a1, a2, ?_, ?_, h2, ?_⟩
      · rcases h : syncPasses s [] with ⟨r2, a⟩
        rw [h] at heq
        simp only at heq
        simp only [synchronize_folders, h, heq]
        rfl
      · rw [List.all_cons, h1]
        rfl
      · rcases h : syncPasses s [] with ⟨r2, a⟩
        simp only [synchronize_folders, h]
    | some r =>
      obtain ⟨a1, a2, heq, h1, h2⟩ := syncPasses_shape s r
      refine ⟨a1, a2, ?_, h1, h2, ?_⟩
      · rw [synchronize_some_some]
        exact heq
      · rw [synchronize_some_some]

theorem pass1ActionOk_spec (x : Action) (h : pass1ActionOk x = true) :
    x.isDeletion = false ∧ x.root = Root.replica := by
  cases x with
  | created_dir r p =>
    cases r <;> simp [pass1ActionOk, Action.isDeletion, Action.root] at h ⊢
  | copied_file r p =>
    cases r <;> simp [pass1ActionOk, Action.isDeletion, Action.root] at h ⊢
  | deleted_file r p => cases r <;> simp [pass1ActionOk] at h
  | deleted_dir r p => cases r <;> simp [pass1ActionOk] at h

theorem pass2ActionOk_spec (x : Action) (h : pass2ActionOk x = true) :
    x.isDeletion = true ∧ x.root = Root.replica := by
  cases x with
  | deleted_file r p =>
    cases r <;> simp [pass2ActionOk, Action.isDeletion, Action.root] at h ⊢
  | deleted_dir r p =>
    cases r <;> simp [pass2ActionOk, Action.isDeletion, Action.root] at h ⊢
  | created_dir r p => cases r <;> simp [pass2ActionOk] at h
  | copied_file r p => cases r <;> simp [pass2ActionOk] at h

theorem cpd_append (a1 a2 : List Action)
    (h1 : ∀ x ∈ a1, x.isDeletion = false)
    (h2 : ∀ x ∈ a2, x.isDeletion = true) :
    copiesPrecedeDeletions (a1 ++ a2) = true := by
  induction a1 with
  | nil =>
    simp only [List.nil_append]
    cases a2 with
    | nil => rfl
    | cons b rest =>
      have hb := h2 b (List.mem_cons_self ..)
      simp only [copiesPrecedeDeletions, hb, if_true]
      rw [List.all_eq_true]
      intro x hx
      exact h2 x (List.mem_cons_of_mem _ hx)
  | cons b rest ih =>
    have hb := h1 b (List.mem_cons_self ..)
    simp only [List.cons_append, copiesPrecedeDeletions, hb]
    simp only [Bool.false_eq_true, if_false]
    exact ih (fun x hx => h1 x (List.mem_cons_of_mem _ hx))

theorem pass2_eq_pruneSpec (src : Tree) :
    (∀ rel rep, (pass2Visit src rel rep).1 = pruneSpec src rel rep) ∧
    (∀ rel l, (pass2Subs src rel l).1 = pruneSpec src rel l) := by
  apply pass2Visit.mutual_induct src
  · intro rel rep rep2 a hsubs ih
    rw [pass2Visit_fst]
    exact ih
  · intro rel
    simp [pass2Subs, pruneSpec]
  · intro rel n rest c0 mt0 r0 rep2 a3 hsubs hk ih
    rw [hsubs] at ih
    simp only at ih
    have hgoal : pass2Subs src rel ((n, Entry.file c0 mt0 r0) :: rest) =
        ((n, Entry.file c0 mt0 r0) :: rep2, a3) := by
      simp [pass2Subs, hk, hsubs]
    rw [hgoal]
    have hk' : (lookupPath src (rel ++ [n])).isSome = true := hk
    simp [pruneSpec, hk', ih]
  · intro rel n rest ch rep2 a1 hvisit rep2b a2 hsubs hk ih1 ih2
    rw [hvisit] at ih1
    rw [hsubs] at ih2
    simp only at ih1 ih2
    have hgoal : pass2Subs src rel ((n, Entry.dir ch) :: rest) =
        ((n, Entry.dir rep2) :: rep2b, a1 ++ a2) := by
      simp [pass2Subs, hk, hvisit, hsubs]
    rw [hgoal]
    have hk' : (lookupPath src (rel ++ [n])).isSome = true := hk
    simp [pruneSpec, hk', ih1, ih2]
  · intro rel n e rest hk ih
    have hrw : pass2Subs src rel ((n, e) :: rest) = pass2Subs src rel rest := by
      cases e <;> rw [pass2Subs, if_neg hk]
    have hk' : (lookupPath src (rel ++ [n])).isSome = false := by
      simpa [keepChild] using hk
    rw [hrw, ih]
    cases e <;> simp [pruneSpec, hk']

/-! ## The claims -/

/-- C5: for every call of synchronize_folders where the source root does not
denote an existing directory (os.path.isdir false, lines 120-121), the
operation logs a warning and returns immediately with an empty report: no
directory is created, no file is copied, nothing is deleted, and the replica
tree is left completely unchanged regardless of its prior content. -/
theorem C5_missing_source_no_op (r0 : Option Tree) :
    synchronize_folders ⟨none, r0⟩ = (⟨none, r0⟩, []) := rfl

/-- C8: for every pass of synchronize_folders, every filesystem write
(directory creation, file copy, file deletion, recursive directory deletion)
targets the replica root, never the source root, and the source tree after
the pass equals the source tree before the pass. -/
theorem C8_frame_replica_only (st : FSState) :
    (synchronize_folders st).1.src = st.src ∧
    ((synchronize_folders st).2.all fun x => decide (x.root = Root.replica)) = true := by
  obtain ⟨a1, a2, heq, h1, h2, hsrc⟩ := synchronize_shape st
  refine ⟨hsrc, ?_⟩
  rw [heq, List.all_eq_true]
  intro x hx
  rcases List.mem_append.mp hx with hx | hx
  · have := (pass1ActionOk_spec x ((List.all_eq_true.mp h1) x hx)).2
    simp [this]
  · have := (pass2ActionOk_spec x ((List.all_eq_true.mp h2) x hx)).2
    simp [this]

/-- C9: within one call of synchronize_folders, every creation and copy of
pass 1 completes before any deletion of pass 2 is performed: once a deletion
appears in the report, everything after it is a deletion, so a renamed
source file is realized as copy-then-delete, never delete-then-copy. -/
theorem C9_copies_precede_deletions (st : FSState) :
    copiesPrecedeDeletions (synchronize_folders st).2 = true := by
  obtain ⟨a1, a2, heq, h1, h2, _⟩ := synchronize_shape st
  rw [heq]
  exact cpd_append a1 a2
    (fun x hx => (pass1ActionOk_spec x ((List.all_eq_true.mp h1) x hx)).1)
    (fun x hx => (pass2ActionOk_spec x ((List.all_eq_true.mp h2) x hx)).1)

/-- C10: during pass 2, a replica entry is deleted exactly when NO entry of
any kind exists at the corresponding relative path under the source root
(os.path.exists, lines 175 and 183); a replica entry whose source
counterpart exists with a mismatched kind is therefore left in place. -/
theorem C10_deletion_guard (src : Tree) (rel : List String) (rep : Tree)
    (n : String) (e : Entry) (hfind : Tree.find rep n = some e) :
    if (lookupPath src (rel ++ [n])).isSome then
      (Tree.find (pass2Visit src rel rep).1 n).isSome = true
    else Tree.find (pass2Visit src rel rep).1 n = none := by
  have h := find_pass2Subs src rel rep n
  rw [← pass2Visit_fst, hfind] at h
  by_cases hk : (lookupPath src (rel ++ [n])).isSome = true
  · rw [if_pos hk]
    rw [hk] at h
    simp only [if_true] at h
    simp [h]
  · have hk' : (lookupPath src (rel ++ [n])).isSome = false := by
      simpa using hk
    rw [if_neg (by simp [hk'])]
    rw [hk'] at h
    simpa using h

/-- C10 witness: a replica file "x" whose source counterpart is a DIRECTORY
(mismatched kind) survives pass 2. -/
theorem C10_deletion_guard_witness :
    (Tree.find (pass2Visit [("x", Entry.dir [])] [] [("x", Entry.file "v" 0 true)]).1
      "x").isSome = true := by
  have h := C10_deletion_guard [("x", Entry.dir [])] [] [("x", Entry.file "v" 0 true)]
    "x" (Entry.file "v" 0 true) (by simp [Tree.find])
  rw [if_pos] at h
  · exact h
  · simp [lookupPath, Tree.find]

/-- C2 counterexample: the replica holds a regular FILE at "x" while the
source holds a DIRECTORY at the same relative path — so no entry of the
matching kind (a file) exists under the source root, and the claim demands
deletion.  Pass 2 nevertheless keeps the file, because os.path.exists is
true for the source directory: the result of the pass is the unchanged
replica and an empty report. -/
theorem C2_counterexample :
    Tree.find [("x", Entry.dir [])] "x" = some (Entry.dir []) ∧
    pass2Visit [("x", Entry.dir [])] [] [("x", Entry.file "v" 0 true)] =
      ([("x", Entry.file "v" 0 true)], []) := by
  constructor
  · simp [Tree.find]
  · simp [pass2Visit, pass2Subs, keepChild, lookupPath, Tree.find]

/-- C2 amended: in pass 2, a replica entry (subdirectory or file) is deleted
exactly when NO entry of ANY kind exists at the corresponding relative path
under the source root — not "of the matching kind" — and deleting a
directory removes it together with its entire subtree: the pass computes
precisely the recursive pruning pruneSpec. -/
theorem C2_amended_prune_eq (src : Tree) (rel : List String) (rep : Tree) :
    (pass2Visit src rel rep).1 = pruneSpec src rel rep :=
  (pass2_eq_pruneSpec src).1 rel rep

/-- C4 counterexample: when setup_logging reports failure, main prints a
message and executes a plain return (lines 227-228); the interpreter then
ends the process with exit status 0 — not the non-zero status the claim
states — before any synchronization pass has run. -/
theorem C4_counterexample : mainAfterParse false = MainOutcome.exited 0 0 := rfl

/-- C4 amended: if the log sink cannot be established at startup, the
process terminates immediately, before any synchronization pass begins, but
with exit status 0 (a plain return from main, line 228), not a non-zero
status; when the log sink is established the synchronization loop is
entered. -/
theorem C4_amended_exit_status :
    mainAfterParse false = MainOutcome.exited 0 0 ∧
    mainAfterParse true = MainOutcome.entersSyncLoop := ⟨rfl, rfl⟩

/-- C3 counterexample: the replica copy of "f" cannot be read, so its
fingerprint fails; generate_md5_checksum swallows the exception and returns
None instead of propagating it, and the caller — far from logging and
skipping the file — treats None as an unequal checksum and COPIES the file. -/
theorem C3_counterexample :
    generate_md5_checksum (Tree.find [("f", Entry.file "a" 0 false)] "f") = none ∧
    (synchronize_folders ⟨some [("f", Entry.file "a" 0 true)],
        some [("f", Entry.file "a" 0 false)]⟩).2 =
      [Action.copied_file .replica ["f"]] := by
  constructor
  · simp [Tree.find, generate_md5_checksum]
  · simp [synchronize_folders, syncPasses, pass1Body, pass1Subs, pass1Files, filesOf,
      pass1File, pass2Visit, pass2Subs, keepChild, lookupPath, Tree.find, Tree.set,
      generate_md5_checksum]

/-- C3 amended: when a file cannot be opened or read,
generate_md5_checksum catches the exception, logs it, and returns None
rather than propagating an IOError; the caller then compares the two
checksum results as plain values, so the file generates no operation exactly
when the two results are equal (identical readable contents, or both
unreadable), and is copied (or, for an unreadable source, the pass aborts in
the attempted copy) when they differ — a one-sided read failure causes a
copy, never a conservative skip. -/
theorem C3_amended_checksum_compare (rel : List String) (f c c' : String)
    (mt mt' : Nat) (r r' : Bool) (rep : Tree)
    (hf : Tree.find rep f = some (Entry.file c' mt' r')) :
    generate_md5_checksum (some (Entry.file c mt false)) = none ∧
    (pass1File rel f c mt r rep = (rep, [], false) ↔
      generate_md5_checksum (some (Entry.file c mt r)) =
        generate_md5_checksum (some (Entry.file c' mt' r'))) := by
  refine ⟨rfl, ?_, ?_⟩
  · intro h
    by_cases heq : generate_md5_checksum (some (Entry.file c mt r)) =
        generate_md5_checksum (some (Entry.file c' mt' r'))
    · exact heq
    · exfalso
      cases r
      · have hstep : pass1File rel f c mt false rep = (rep, [], true) := by
          simp [pass1File, hf, heq]
        rw [hstep] at h
        simp at h
      · have hstep : pass1File rel f c mt true rep =
            (Tree.set rep f (Entry.file c mt true),
             [Action.copied_file .replica (rel ++ [f])], false) := by
          simp [pass1File, hf, heq]
        rw [hstep] at h
        simp at h
  · intro heq
    simp [pass1File, hf, heq]

/-- C3 witness: source "g" readable with content "a", replica "g" unreadable
with the same content: the checksum results differ (some "a" against None),
so the step is not a skip. -/
theorem C3_amended_checksum_compare_witness :
    generate_md5_checksum (some (Entry.file "a" 0 false)) = none ∧
    (pass1File [] "g" "a" 0 true [("g", Entry.file "a" 9 false)] =
        ([("g", Entry.file "a" 9 false)], [], false) ↔
      generate_md5_checksum (some (Entry.file "a" 0 true)) =
        generate_md5_checksum (some (Entry.file "a" 9 false))) :=
  C3_amended_checksum_compare [] "g" "a" "a" 0 9 true false
    [("g", Entry.file "a" 9 false)] (by simp [Tree.find])

/-- C6 counterexample: the source holds a readable file "f"; the replica
holds a DIRECTORY at the same relative path, so no file exists there and the
claim demands the source file be copied TO that path.  Pass 1 instead copies
it INTO the directory (shutil.copy2 onto an existing directory lands at
"f"/"f"), and the replica path "f" remains a directory. -/
theorem C6_counterexample :
    pass1Body [("f", Entry.file "a" 7 true)] [] [("f", Entry.dir [])] =
      ([("f", Entry.dir [("f", Entry.file "a" 7 true)])],
       [Action.copied_file .replica ["f", "f"]], false) ∧
    Tree.find [("f", Entry.dir [("f", Entry.file "a" 7 true)])] "f" =
      some (Entry.dir [("f", Entry.file "a" 7 true)]) := by
  constructor
  · simp [pass1Body, pass1Subs, pass1Files, filesOf, pass1File, Tree.find, Tree.set,
      generate_md5_checksum]
  · simp [Tree.find]

/-- C6 amended: in pass 1, for every READABLE source file whose
corresponding replica path is not occupied by a directory: if nothing exists
at that path the source file is copied there, preserving content and
modification time; if a file exists there, the source file overwrites it
exactly when the two fingerprints differ; a file whose replica copy carries
an identical fingerprint generates no filesystem operation at all. -/
theorem C6_amended_per_file (rel : List String) (f c : String) (mt : Nat)
    (rep : Tree) (hnd : ∀ t, Tree.find rep f ≠ some (Entry.dir t)) :
    (Tree.find rep f = none →
      pass1File rel f c mt true rep =
        (Tree.set rep f (Entry.file c mt true),
         [Action.copied_file .replica (rel ++ [f])], false)) ∧
    (∀ e, Tree.find rep f = some e →
      (generate_md5_checksum (some (Entry.file c mt true)) =
          generate_md5_checksum (some e) →
        pass1File rel f c mt true rep = (rep, [], false)) ∧
      (generate_md5_checksum (some (Entry.file c mt true)) ≠
          generate_md5_checksum (some e) →
        pass1File rel f c mt true rep =
          (Tree.set rep f (Entry.file c mt true),
           [Action.copied_file .replica (rel ++ [f])], false))) := by
  constructor
  · intro h
    simp [pass1File, h]
  · intro e he
    constructor
    · intro heq
      simp [pass1File, he, heq]
    · intro hne
      rcases e with ⟨c', mt', r'⟩ | t
      · simp [pass1File, he, hne]
      · exact absurd he (hnd t)

/-- C6 witness: copying a fresh readable file "f" into an empty replica
directory. -/
theorem C6_amended_per_file_witness :
    (Tree.find [] "f" = none →
      pass1File [] "f" "a" 1 true [] =
        (Tree.set [] "f" (Entry.file "a" 1 true),
         [Action.copied_file .replica ([] ++ ["f"])], false)) ∧
    (∀ e, Tree.find [] "f" = some e →
      (generate_md5_checksum (some (Entry.file "a" 1 true)) =
          generate_md5_checksum (some e) →
        pass1File [] "f" "a" 1 true [] = ([], [], false)) ∧
      (generate_md5_checksum (some (Entry.file "a" 1 true)) ≠
          generate_md5_checksum (some e) →
        pass1File [] "f" "a" 1 true [] =
          (Tree.set [] "f" (Entry.file "a" 1 true),
           [Action.copied_file .replica ([] ++ ["f"])], false))) :=
  C6_amended_per_file [] "f" "a" 1 [] (by simp [Tree.find])

/-- C1 counterexample: source = a directory "d", replica = a regular file
"d".  One complete call of synchronize_folders performs no operation at all:
pass 1 sees os.path.exists true for the target so it creates nothing, and
pass 2 sees os.path.exists true for the source directory so it deletes
nothing.  The replica does not mirror the source: path "d" is a directory
in S but remains a file in R. -/
theorem C1_counterexample :
    synchronize_folders ⟨some [("d", Entry.dir [])],
        some [("d", Entry.file "x" 0 true)]⟩ =
      (⟨some [("d", Entry.dir [])], some [("d", Entry.file "x" 0 true)]⟩, []) ∧
    mirrors [("d", Entry.dir [])] [("d", Entry.file "x" 0 true)] = false := by
  constructor
  · simp [synchronize_folders, syncPasses, pass1Body, pass1Subs, pass1Files, filesOf,
      pass1File, pass2Visit, pass2Subs, keepChild, lookupPath, Tree.find, Tree.set,
      generate_md5_checksum]
  · simp [mirrors, Tree.find]

/-- C1 amended: for every pair of existing well-formed directory trees S
(source) and R (replica) such that no relative path is a directory in one
tree and a regular file in the other, and every file of S is readable,
after one complete call of synchronize_folders the replica mirrors the
source exactly: every relative path of S exists in the result with the same
kind and, for files, an identical content fingerprint, and no other path
exists in the result; and if S does not exist, R is left unchanged. -/
theorem C1_amended_convergence (s r : Tree) (r0 : Option Tree)
    (hws : wfTree s = true) (hwr : wfTree r = true)
    (hrs : allReadable s = true) (hnm : noMismatch s r = true) :
    (∃ r2, (synchronize_folders ⟨some s, some r⟩).1.rep = some r2 ∧
      mirrors s r2 = true) ∧
    synchronize_folders ⟨none, r0⟩ = (⟨none, r0⟩, []) := by
  refine ⟨⟨(syncPasses s r).1, ?_, ?_⟩, rfl⟩
  · rw [synchronize_some_some]
  · exact (syncPasses_mirrors s r hws hrs hwr hnm).1

/-- C1 witness: a two-level source against a replica holding one stale
unreadable file and one already-existing directory. -/
theorem C1_amended_convergence_witness :
    (∃ r2, (synchronize_folders
        ⟨some [("a", Entry.file "ha" 1 true),
               ("d", Entry.dir [("b", Entry.file "hb" 2 true)])],
         some [("junk", Entry.file "z" 3 false), ("d", Entry.dir [])]⟩).1.rep =
          some r2 ∧
      mirrors [("a", Entry.file "ha" 1 true),
               ("d", Entry.dir [("b", Entry.file "hb" 2 true)])] r2 = true) ∧
    synchronize_folders ⟨none, some [("q", Entry.file "w" 0 true)]⟩ =
      (⟨none, some [("q", Entry.file "w" 0 true)]⟩, []) :=
  C1_amended_convergence
    [("a", Entry.file "ha" 1 true), ("d", Entry.dir [("b", Entry.file "hb" 2 true)])]
    [("junk", Entry.file "z" 3 false), ("d", Entry.dir [])]
    (some [("q", Entry.file "w" 0 true)])
    (by simp [wfTree, Tree.find]) (by simp [wfTree, Tree.find])
    (by simp [allReadable]) (by simp [noMismatch, Tree.find])

/-- C7 counterexample: source = file "x", replica = directory "x".  The
first call copies the source file INTO the directory (to "x"/"x") during
pass 1 and then deletes that very file during pass 2, returning the trees to
their initial state — so the second call, with no change to the source,
again performs one file copy and one file deletion: not a filesystem no-op. -/
theorem C7_counterexample :
    (synchronize_folders
      ((synchronize_folders ⟨some [("x", Entry.file "a" 0 true)],
        some [("x", Entry.dir [])]⟩).1)).2 =
      [Action.copied_file .replica ["x", "x"],
       Action.deleted_file .replica ["x", "x"]] := by
  simp [synchronize_folders, syncPasses, pass1Body, pass1Subs, pass1Files, filesOf,
    pass1File, pass2Visit, pass2Subs, keepChild, lookupPath, Tree.find, Tree.set,
    generate_md5_checksum]

/-- C7 amended: for well-formed trees with no kind-mismatched paths and a
fully readable source, running synchronize_folders twice in a row with no
change to the source performs zero filesystem operations during the second
run — in particular zero file copies and zero deletions. -/
theorem C7_amended_idempotent (s r : Tree) (hws : wfTree s = true)
    (hwr : wfTree r = true) (hrs : allReadable s = true)
    (hnm : noMismatch s r = true) :
    (synchronize_folders ((synchronize_folders ⟨some s, some r⟩).1)).2 = [] := by
  have h := syncPasses_mirrors s r hws hrs hwr hnm
  rw [synchronize_some_some]
  have hfst : ((⟨some s, some (syncPasses s r).1⟩ : FSState), (syncPasses s r).2).1 =
      ⟨some s, some (syncPasses s r).1⟩ := rfl
  rw [hfst, synchronize_some_some,
    syncPasses_idem s (syncPasses s r).1 hws hrs h.2.2 h.2.1 h.1]

/-- C7 witness: a one-file source synchronized into an initially empty
replica; the second run reports nothing. -/
theorem C7_amended_idempotent_witness :
    (synchronize_folders
      ((synchronize_folders ⟨some [("p", Entry.file "q" 4 true)], some []⟩).1)).2 = [] :=
  C7_amended_idempotent [("p", Entry.file "q" 4 true)] []
    (by simp [wfTree, Tree.find]) (by simp [wfTree])
    (by simp [allReadable]) (by simp [noMismatch, Tree.find])

end FoldersSyncV1
